import Mathlib

/-!
# Verification of the wexler/mindful synchronization engine

Shallow embedding, in Lean 4, of the configuration-synchronization engine of
the `kanlac/wexler` repository (Go), together with proofs and refutations of
the frozen specification claims.

Conventions used throughout:

* Go strings are modelled as Lean `String`; Go byte slices as `List Nat`
  (each element a byte value `< 256`).
* Go's `strings.Split`/`Join` become `String.splitOn`/`String.intercalate`,
  which agree with the Go functions for non-empty separators.
* Whitespace sets are the ASCII whitespace characters, matching the
  characters `strings.TrimSpace` trims for ASCII input.
* The file system is an association list from path to content; `os.Stat`
  success is membership, `os.ReadFile` is lookup, writing upserts.
* Go maps are modelled as association lists; map assignment is an upsert.
  Go's map iteration order is unspecified, so no theorem below relies on the
  iteration order of a modelled map beyond membership.
* JSON numbers are modelled as integers (the engine's configurations use
  integral numbers; floating-point behaviour is outside the model).
-/

namespace Wexler

/-! ## Go string primitives -/

/-- ASCII whitespace, the characters `strings.TrimSpace` trims for ASCII
content (`' '`, `'\t'`, `'\n'`, `'\v'`, `'\f'`, `'\r'`). -/
def isGoSpace (c : Char) : Bool :=
  c = ' ' || c = '\t' || c = '\n' || c = '\x0b' || c = '\x0c' || c = '\r'

/-- Drop characters satisfying `p` from the end of a list. -/
def dropWhileEnd (p : Char → Bool) (cs : List Char) : List Char :=
  (cs.reverse.dropWhile p).reverse

/-- Go `strings.TrimSpace` (ASCII model). -/
def goTrimSpace (s : String) : String :=
  String.mk (dropWhileEnd isGoSpace (s.toList.dropWhile isGoSpace))

/-- Go `strings.TrimRight` with an explicit cutset. -/
def goTrimRight (s : String) (cutset : List Char) : String :=
  String.mk (dropWhileEnd (fun c => cutset.contains c) s.toList)

/-- Go `strings.HasPrefix` (list-structural so that the kernel can
evaluate it). -/
def goHasPfx (s p : String) : Bool := p.toList.isPrefixOf s.toList

/-- Go `strings.HasSuffix`. -/
def goHasSfx (s p : String) : Bool := p.toList.isSuffixOf s.toList

/-- Go `strings.TrimPrefix`: drop `p` from the front of `s` when present. -/
def goTrimPfx (s p : String) : String :=
  if goHasPfx s p then String.mk (s.toList.drop p.toList.length) else s

/-- Go `strings.TrimSuffix`: drop `p` from the end of `s` when present. -/
def goTrimSfx (s p : String) : String :=
  if goHasSfx s p then String.mk (s.toList.take (s.toList.length - p.toList.length)) else s

/-- Split a character list at every newline (`strings.Split(s, "\n")`). -/
def splitLinesL (cs : List Char) : List (List Char) :=
  cs.foldr
    (fun c r =>
      if c = '\n' then [] :: r
      else
        match r with
        | [] => [[c]]
        | l :: ls => (c :: l) :: ls)
    [[]]

/-- Go `strings.Split` with separator `"\n"`. -/
def splitLines (s : String) : List String := (splitLinesL s.toList).map String.mk

/-- Go `strings.Join` with separator `sep`. -/
def goJoin : List String → String → String
  | [], _ => ""
  | [x], _ => x
  | x :: y :: xs, sep => x ++ sep ++ goJoin (y :: xs) sep

/-- Go `strings.Join` with separator `"\n"`. -/
def joinLines (xs : List String) : String := goJoin xs "\n"

/-- Go `strings.EqualFold`, ASCII case folding. -/
def goEqualFold (a b : String) : Bool :=
  a.toList.map Char.toLower = b.toList.map Char.toLower

/-- Go `filepath.Join` of two components, for the cleaned inputs the engine
passes (no trailing slashes, non-empty relative second component). -/
def joinPath (a b : String) : String :=
  if a = "" then b else a ++ "/" ++ b

/-- Go `filepath.Dir` for slash-separated paths: everything before the final
separator, or `"."` when there is none. -/
def goDir (p : String) : String :=
  let cs := p.toList
  if cs.contains '/' then
    String.mk (dropWhileEnd (fun c => c ≠ '/') cs |>.dropLast)
  else "."

/-- Go `filepath.Base` for slash-separated paths: the part after the final
separator. -/
def goBase (p : String) : String :=
  String.mk (p.toList.reverse.takeWhile (fun c => c ≠ '/')).reverse

example : goDir "a/b/c.md" = "a/b" := by decide
example : goDir "CLAUDE.md" = "." := by decide
example : goBase "a/b/c.md" = "c.md" := by decide
example : goTrimSpace "  hi\n" = "hi" := by decide
example : goTrimRight "x\n\t " ['\n', '\t', ' '] = "x" := by decide

/-! ## Association lists (Go maps) and the file system -/

/-- Go map assignment `m[k] = v` on an association-list model: replace the
binding in place when the key is present, append otherwise. -/
def upsert {α : Type} : List (String × α) → String → α → List (String × α)
  | [], k, v => [(k, v)]
  | (k', v') :: rest, k, v =>
    if k' = k then (k, v) :: rest else (k', v') :: upsert rest k v

/-- Go map lookup `m[k]`. -/
def assocLookup {α : Type} (m : List (String × α)) (k : String) : Option α :=
  (m.find? (fun kv => kv.1 = k)).map (·.2)

/-- Go `delete(m, k)`. -/
def assocRemove {α : Type} : List (String × α) → String → List (String × α)
  | [], _ => []
  | (k', v') :: rest, k =>
    if k' = k then assocRemove rest k else (k', v') :: assocRemove rest k

/-- The file system: path → content.  `os.Stat` success is key membership,
`os.ReadFile` is lookup. -/
abbrev FS : Type := List (String × String)

/-- `os.ReadFile`; in the model reads of present files always succeed. -/
def fsRead (fs : FS) (p : String) : Option String := assocLookup fs p

/-- `Manager.fileExists` (apply/manager.go): `os.Stat` succeeds. -/
def fileExists (fs : FS) (p : String) : Bool := (fsRead fs p).isSome

/-! ## Content extractor (src/apply/content_extractor.go, wexler iteration) -/

/-- The line scan of `DefaultContentExtractor.extractWexlerSection`
(content_extractor.go:99–115): walk the lines, enter the section at a
level-1 `WEXLER` heading (case-insensitive), collect lines until the next
level-1 heading (`break`), tracking whether the marker was found at all. -/
def extractWexlerScan : List String → Bool → Bool → List String → Bool × List String
  | [], _, found, acc => (found, acc)
  | l :: ls, inW, found, acc =>
    if goHasPfx l "# " then
      let name := goTrimSpace (goTrimPfx l "# ")
      if goEqualFold name "WEXLER" then extractWexlerScan ls true true acc
      else if inW then (found, acc)
      else extractWexlerScan ls false found acc
    else if inW then extractWexlerScan ls true found (acc ++ [l])
    else extractWexlerScan ls inW found acc

/-- `DefaultContentExtractor.extractWexlerSection` (content_extractor.go:89–124):
the owned slice of a shared `CLAUDE.md`, i.e. the lines strictly under the
`# WEXLER` heading, right-trimmed of `"\n\t "`; empty string when the marker
is absent. -/
def extractWexlerSection (content : String) : String :=
  if content = "" then ""
  else
    let (found, acc) := extractWexlerScan (splitLines content) false false []
    if found then goTrimRight (joinLines acc) ['\n', '\t', ' '] else ""

/-- `DefaultContentExtractor.extractClaudeContent` (content_extractor.go:52–69):
for claude memory files named `CLAUDE.md` only the WEXLER section is owned;
every other content type owns the whole file. -/
def extractClaudeContent (content filePath fileType : String) : String :=
  if fileType = "memory" then
    if goHasSfx filePath "CLAUDE.md" then extractWexlerSection content else content
  else content

/-- `DefaultContentExtractor.ExtractExistingContent` (content_extractor.go:25–49):
empty string for a missing file; otherwise tool-specific extraction (cursor
and unknown tools own whole files). -/
def extractExistingContent (fs : FS) (filePath toolName fileType : String) : String :=
  if ¬ fileExists fs filePath then ""
  else
    let content := (fsRead fs filePath).getD ""
    if toolName = "claude" then extractClaudeContent content filePath fileType
    else content

example :
    extractWexlerSection "# Intro\nx\n# WEXLER\nours\nmore\n# Tail\ny" = "ours\nmore" := by
  decide
example : extractWexlerSection "# Other\nbody" = "" := by decide
example : extractWexlerSection "# wexler\nok\n" = "ok" := by decide

/-! ## Apply data model (src/models/project.go, wexler iteration) -/

/-- `tools.ConfigFile`: one generated file.  Go's `Type` field is `ftype`
here (`"memory"`, `"subagent"`, `"mcp"`). -/
structure ConfigFile where
  path : String
  content : String
  ftype : String
deriving DecidableEq, Repr

/-- `models.FileConflict` (project.go). -/
structure FileConflict where
  filePath : String
  existingHash : String
  newHash : String
  diff : String
  fileType : String
deriving DecidableEq, Repr

/-- `models.ConflictResolution` (project.go). -/
inductive ConflictResolution where
  | Continue
  | ContinueAll
  | Stop
deriving DecidableEq, Repr

/-- `models.ApplyProgress` (project.go); the two wall-clock timestamps are
outside the model. -/
structure ApplyProgress where
  total : Nat
  completed : Nat
  current : String
  status : String
deriving DecidableEq, Repr

/-- `models.NewApplyProgress`. -/
def newApplyProgress (total : Nat) : ApplyProgress :=
  { total := total, completed := 0, current := "", status := "running" }

/-- `ApplyProgress.UpdateProgress`. -/
def updateProgress (p : ApplyProgress) (completed : Nat) (current : String) : ApplyProgress :=
  { p with completed := completed, current := current }

/-- `ApplyProgress.Complete`. -/
def progressComplete (p : ApplyProgress) : ApplyProgress :=
  { p with completed := p.total, current := "", status := "completed" }

/-- `ApplyProgress.Fail`. -/
def progressFail (p : ApplyProgress) (current : String) : ApplyProgress :=
  { p with current := current, status := "failed" }

/-- `models.ApplyResult` (project.go). -/
structure ApplyResult where
  success : Bool
  filesWritten : List String
  filesSkipped : List String
  conflicts : List FileConflict
  progress : Option ApplyProgress
  error : String
deriving DecidableEq, Repr

/-- `models.NewApplyResult`. -/
def newApplyResult : ApplyResult :=
  { success := false, filesWritten := [], filesSkipped := [], conflicts := [],
    progress := none, error := "" }

/-- `ApplyResult.AddWrittenFile`. -/
def addWrittenFile (r : ApplyResult) (p : String) : ApplyResult :=
  { r with filesWritten := r.filesWritten ++ [p] }

/-- `ApplyResult.AddSkippedFile`. -/
def addSkippedFile (r : ApplyResult) (p : String) : ApplyResult :=
  { r with filesSkipped := r.filesSkipped ++ [p] }

/-- `ApplyResult.AddConflict`. -/
def addConflict (r : ApplyResult) (c : FileConflict) : ApplyResult :=
  { r with conflicts := r.conflicts ++ [c] }

/-- `ApplyResult.SetSuccess`. -/
def setSuccess (r : ApplyResult) : ApplyResult :=
  { r with success := true, error := "", progress := r.progress.map progressComplete }

/-- `Manager.hashContent` (apply manager): `fmt.Sprintf("%x", len(content)^0xDEADBEEF)`;
Go `len` counts bytes. -/
def hashContent (content : String) : String :=
  String.mk (Nat.toDigits 16 (Nat.xor content.utf8ByteSize 0xDEADBEEF))

/-- `Manager.generateDiff` (apply manager): byte counts formatted as a
pseudo line diff. -/
def generateDiff (existing newContent : String) : String :=
  "-" ++ toString existing.utf8ByteSize ++ " lines, +" ++
    toString newContent.utf8ByteSize ++ " lines"

/-- `Manager.createConflict` (apply manager). -/
def createConflict (filePath existingContent newContent fileType : String) : FileConflict :=
  { filePath := filePath, existingHash := hashContent existingContent,
    newHash := hashContent newContent, diff := generateDiff existingContent newContent,
    fileType := fileType }

/-! ## File writing (`Manager.writeFile`, apply manager part_004:218–227)

The write is recorded as a trace of file-system operations so that theorems
can speak about *how* the bytes reach the disk (directory creation, direct
write, rename), not only about the final state. -/

/-- One file-system side effect. -/
inductive FsOp where
  | mkdirAll (dir : String)
  | write (path content : String)
  | rename (src dst : String)
deriving DecidableEq, Repr

/-- Whether an operation is an atomic rename. -/
def FsOp.isRename : FsOp → Bool
  | .rename _ _ => true
  | _ => false

/-- Apply one operation to the file-system state.  `mkdirAll` is idempotent
directory creation and does not touch file contents; `write` replaces the
full content of `path`; `rename` moves a file. -/
def applyOp (fs : FS) : FsOp → FS
  | .mkdirAll _ => fs
  | .write p c => upsert fs p c
  | .rename src dst =>
    match fsRead fs src with
    | some c => upsert (assocRemove fs src) dst c
    | none => fs

/-- Run a trace of operations. -/
def applyOps (fs : FS) (ops : List FsOp) : FS := ops.foldl applyOp fs

/-- The operations `Manager.writeFile` performs: `os.MkdirAll(filepath.Dir(path))`
followed directly by `os.WriteFile(path, content)`. -/
def writeFileOps (path content : String) : List FsOp :=
  [FsOp.mkdirAll (goDir path), FsOp.write path content]

/-- `Manager.writeFile`: the state after running its operation trace. -/
def writeFile (fs : FS) (path content : String) : FS :=
  applyOps fs (writeFileOps path content)

/-! ## Claude memory merge (`Manager.generateClaudeMemoryContent`, part_004:279–333) -/

/-- The section-parsing loop of `generateClaudeMemoryContent`
(part_004:289–311): walk the lines, start a new section at each `"# "`
heading, collect body lines of the current section, and store each finished
section in the map (`existingSections[currentSection] = ...`, an upsert).
Lines before the first heading are discarded (`currentSection` still empty). -/
def parseSectionsLoop :
    List String → String → List String → List (String × String) → List (String × String)
  | [], cur, curContent, secs =>
    if cur ≠ "" then upsert secs cur (joinLines curContent) else secs
  | l :: ls, cur, curContent, secs =>
    if goHasPfx l "# " then
      let secs' := if cur ≠ "" then upsert secs cur (joinLines curContent) else secs
      parseSectionsLoop ls (goTrimSpace (goTrimPfx l "# ")) [] secs'
    else if cur ≠ "" then parseSectionsLoop ls cur (curContent ++ [l]) secs
    else parseSectionsLoop ls cur curContent secs

/-- Parse an existing `CLAUDE.md` into its top-level sections, as
`generateClaudeMemoryContent` does (the Go code only parses when the file
content is non-empty; an empty string yields the empty map either way). -/
def parseSections (content : String) : List (String × String) :=
  if content ≠ "" then parseSectionsLoop (splitLines content) "" [] [] else []

/-- `Manager.generateClaudeMemoryContent` (part_004:279–333): read the
current working directory's `CLAUDE.md` (note: *not* the target path),
parse it into sections, upsert the `WEXLER` section, and rebuild the file
with the WEXLER block first and every other non-empty section after it,
each body trimmed.  The Go map's iteration order is unspecified; the model
iterates in first-insertion order, and no theorem relies on that order
beyond membership. -/
def claudeMemoryParts (fs : FS) (wexlerContent : String) : List String :=
  let existingContent := (fsRead fs "CLAUDE.md").getD ""
  let secs0 := parseSections existingContent
  let secs := upsert secs0 "WEXLER" wexlerContent
  let headAndRest :=
    match assocLookup secs "WEXLER" with
    | some w =>
      if goTrimSpace w ≠ "" then (["# WEXLER\n" ++ goTrimSpace w], assocRemove secs "WEXLER")
      else (([] : List String), secs)
    | none => (([] : List String), secs)
  headAndRest.1 ++
    ((headAndRest.2.filter (fun kv => kv.1 ≠ "" && goTrimSpace kv.2 ≠ "")).map
      (fun kv => "# " ++ kv.1 ++ "\n" ++ goTrimSpace kv.2))

def generateClaudeMemoryContent (fs : FS) (wexlerContent : String) : String :=
  goJoin (claudeMemoryParts fs wexlerContent) "\n\n"

/-- `Manager.getClaudeWriteContent` (part_004:264–270): only the dedicated
`CLAUDE.md` memory file is rebuilt by section merge; everything else is
written as generated. -/
def getClaudeWriteContent (fs : FS) (file : ConfigFile) : String :=
  if file.ftype = "memory" && file.path = "CLAUDE.md" then
    generateClaudeMemoryContent fs file.content
  else file.content

/-- `Manager.getActualWriteContent` (part_004:252–261). -/
def getActualWriteContent (fs : FS) (file : ConfigFile) (toolName : String) : String :=
  if toolName = "claude" then getClaudeWriteContent fs file
  else file.content

/-! ## The apply loop (`Manager.ApplyConfig`, part_004:33–120)

Generation (`adapter.Generate`) is deterministic for a fixed tool
configuration, so the loop is embedded over its output: the ordered list of
generated files.  Config validation and adapter construction happen before
the loop and abort the whole run on failure; theorems below concern runs
that reach the loop. -/

/-- The scalar inputs of `models.ApplyConfig` that drive the loop. -/
structure ApplyCfg where
  projectPath : String
  toolName : String
  dryRun : Bool
  force : Bool
deriving DecidableEq, Repr

/-- `result.Progress.UpdateProgress(i, file.Path)` applied to the result's
optional progress. -/
def progressTick (res : ApplyResult) (i : Nat) (path : String) : ApplyResult :=
  { res with progress := Option.map (fun p => updateProgress p i path) res.progress }

/-- The per-file loop of `Manager.ApplyConfig` (part_004:66–106), indexed by
the running file counter used for `UpdateProgress`.  Dry runs only record
skips; otherwise an existing target is extracted and compared unless
`Force` is set, a difference records a conflict and skips the file, and
equality or absence falls through to the write. -/
def applyLoop (cfg : ApplyCfg) :
    List ConfigFile → Nat → FS → ApplyResult → ApplyResult × FS
  | [], _, fs, res => (res, fs)
  | f :: rest, i, fs, res =>
    let res := progressTick res i f.path
    let target := joinPath cfg.projectPath f.path
    if cfg.dryRun then
      applyLoop cfg rest (i + 1) fs (addSkippedFile res f.path)
    else if fileExists fs target && !cfg.force then
      let existing := extractExistingContent fs target cfg.toolName f.ftype
      if existing ≠ f.content then
        applyLoop cfg rest (i + 1) fs
          (addSkippedFile (addConflict res (createConflict f.path existing f.content f.ftype))
            f.path)
      else
        let actual := getActualWriteContent fs f cfg.toolName
        applyLoop cfg rest (i + 1) (writeFile fs target actual) (addWrittenFile res f.path)
    else
      let actual := getActualWriteContent fs f cfg.toolName
      applyLoop cfg rest (i + 1) (writeFile fs target actual) (addWrittenFile res f.path)

/-- `Manager.ApplyConfig` from the result initialisation to the returned
result (part_004:43–119): run the loop over the generated files, then mark
the run successful — with a "conflicts detected but proceeding" error note
when conflicts were recorded, completing the progress only in the clean
case, exactly as the Go code does. -/
def applyConfigRun (cfg : ApplyCfg) (files : List ConfigFile) (fs : FS) :
    ApplyResult × FS :=
  let res0 := { newApplyResult with progress := some (newApplyProgress files.length) }
  let (res, fs') := applyLoop cfg files 0 fs res0
  let res :=
    if res.conflicts.length ≠ 0 then
      { res with success := true,
                 error := if res.error = "" then
                     toString res.conflicts.length ++ " conflicts detected but proceeding"
                   else res.error }
    else setSuccess res
  (res, fs')

/-- `Manager.DetectConflicts` (part_004:123–168), over the generated files:
for every file whose target exists, extract the owned slice and record a
conflict when it differs from the generated content. -/
def detectConflictsRun (cfg : ApplyCfg) (files : List ConfigFile) (fs : FS) :
    List FileConflict :=
  files.foldl
    (fun acc f =>
      let target := joinPath cfg.projectPath f.path
      if fileExists fs target then
        let existing := extractExistingContent fs target cfg.toolName f.ftype
        if existing ≠ f.content then
          acc ++ [createConflict f.path existing f.content f.ftype]
        else acc
      else acc)
    []

/-! ## The CLI apply loop (`runApply`, src/cli/apply.go:114–191)

Embedded per tool over: the generator output (`gen`, one deterministic file
list per tool, as `adapter.Generate` is), and the interactive prompt
(`prompt`, the `promptUser` callback, a scripted function here).  The `force`
package variable the CLI mutates is threaded as explicit state. -/

/-- What happened while processing one tool. -/
structure ToolTrace where
  tool : String
  prompted : Bool
  resolution : Option ConflictResolution
  result : Option ApplyResult
deriving DecidableEq, Repr, Inhabited

/-- One iteration of the tool loop of `runApply` (apply.go:115–191): unless
the global force flag is set, detect conflicts first; with conflicts on a
real run, prompt once for the whole tool — `Stop` skips this tool entirely
and moves on, `Continue` forces this tool's apply, `ContinueAll`
additionally sets the global force flag; otherwise apply normally. -/
def runTool (gen : String → List ConfigFile)
    (prompt : List FileConflict → String → ConflictResolution)
    (projectPath : String) (dryRun : Bool) (force : Bool) (fs : FS) (tool : String) :
    Bool × FS × ToolTrace :=
  let cfg : ApplyCfg :=
    { projectPath := projectPath, toolName := tool, dryRun := dryRun, force := force }
  let files := gen tool
  if !force then
    let conflicts := detectConflictsRun cfg files fs
    if conflicts ≠ [] && !dryRun then
      match prompt conflicts tool with
      | .Stop =>
        (force, fs,
          { tool := tool, prompted := true, resolution := some .Stop, result := none })
      | .Continue =>
        let (res, fs') := applyConfigRun { cfg with force := true } files fs
        (force, fs',
          { tool := tool, prompted := true, resolution := some .Continue, result := some res })
      | .ContinueAll =>
        let (res, fs') := applyConfigRun { cfg with force := true } files fs
        (true, fs',
          { tool := tool, prompted := true, resolution := some .ContinueAll,
            result := some res })
    else
      let (res, fs') := applyConfigRun cfg files fs
      (force, fs',
        { tool := tool, prompted := false, resolution := none, result := some res })
  else
    let (res, fs') := applyConfigRun cfg files fs
    (force, fs',
      { tool := tool, prompted := false, resolution := none, result := some res })

/-- The whole tool loop of `runApply`: fold `runTool` over the tool list,
threading the mutable `force` flag and the file system, collecting one
trace per tool. -/
def runApplyTools (gen : String → List ConfigFile)
    (prompt : List FileConflict → String → ConflictResolution)
    (projectPath : String) (dryRun : Bool) :
    List String → Bool → FS → FS × List ToolTrace
  | [], _, fs => (fs, [])
  | t :: ts, force, fs =>
    let s := runTool gen prompt projectPath dryRun force fs t
    let r := runApplyTools gen prompt projectPath dryRun ts s.1 s.2.1
    (r.1, s.2.2 :: r.2)

/-! ## Memory content generation (src/tools/common/header.go and the
claude adapter's `GenerateClaudeMemoryContent`, part_016) -/

/-- Byte length of a string, Go's `len`. -/
def byteLen (s : String) : Nat := (s.toList.map Char.utf8Size).sum

/-- The header test both loops of header.go repeat inline: the line trims
to a `"# "`-prefixed string longer than two bytes. -/
def isH1Line (line : String) : Bool :=
  let t := goTrimSpace line
  goHasPfx t "# " && byteLen t > 2

/-- `common.hasLevelOneHeaders` (header.go:29–38). -/
def hasLevelOneHeaders (content : String) : Bool :=
  (splitLines content).any isH1Line

/-- The loop of `common.addSuffixToH1Headers` (header.go:41–66): rewrite
every level-1 heading with the scope suffix, insert the provenance comment
under it, and a blank line when the following line is not already blank. -/
def addSuffixLoop (scopeName sourcePath : String) : List String → List String
  | [] => []
  | line :: rest =>
    let t := goTrimSpace line
    if isH1Line line then
      let headerTitle := goTrimSpace (String.mk (t.toList.drop 2))
      let modifiedHeader := "# " ++ headerTitle ++ " -- Mindful (scope:" ++ scopeName ++ ")"
      let srcComment := "<!-- Source: " ++ sourcePath ++ " -->"
      let pad : List String :=
        match rest with
        | [] => []
        | nxt :: _ => if goTrimSpace nxt ≠ "" then [""] else []
      modifiedHeader :: srcComment :: (pad ++ addSuffixLoop scopeName sourcePath rest)
    else line :: addSuffixLoop scopeName sourcePath rest

/-- `common.addSuffixToH1Headers` (header.go:41–66). -/
def addSuffixToH1Headers (content scopeName sourcePath : String) : String :=
  joinLines (addSuffixLoop scopeName sourcePath (splitLines content))

/-- `common.ProcessMemoryContent` (header.go:9–26): trim, synthesize a
wrapper heading when the content has no level-1 heading, otherwise annotate
every level-1 heading. -/
def ProcessMemoryContent (content scopeName sourcePath : String) : String :=
  let content := goTrimSpace content
  if content = "" then ""
  else if !hasLevelOneHeaders content then
    "# Mindful (scope:" ++ scopeName ++ ")\n<!-- Source: " ++ sourcePath ++ " -->\n\n" ++
      content
  else addSuffixToH1Headers content scopeName sourcePath

/-- `models.MemoryConfig`, dual-scope iteration (mindful models). -/
structure MemoryConfig where
  teamContent : String
  projectContent : String
  teamSourcePath : String
  projectSourcePath : String
  hasTeam : Bool
  hasProject : Bool
deriving DecidableEq, Repr

/-- `models.NewMemoryConfig`. -/
def newMemoryConfig : MemoryConfig :=
  { teamContent := "", projectContent := "", teamSourcePath := "",
    projectSourcePath := "", hasTeam := false, hasProject := false }

/-- `claude.GenerateClaudeMemoryContent` (part_016:13–33): the team-scope
section, then the project-scope section, each only when present and
non-blank, joined by a blank line; `nil` memory yields the empty string. -/
def GenerateClaudeMemoryContent : Option MemoryConfig → String
  | none => ""
  | some m =>
    let parts : List String :=
      (if m.hasTeam && goTrimSpace m.teamContent ≠ "" then
        [ProcessMemoryContent m.teamContent "team" m.teamSourcePath]
      else []) ++
      (if m.hasProject && goTrimSpace m.projectContent ≠ "" then
        [ProcessMemoryContent m.projectContent "project" m.projectSourcePath]
      else [])
    goJoin parts "\n\n"

/-! ## Source loading (src/source/manager.go) -/

/-- `models.SubagentConfig`. -/
structure SubagentConfig where
  name : String
  content : String
deriving DecidableEq, Repr

/-- `models.SourceConfig` (dual-scope iteration): memory plus the subagent
map. -/
structure SourceConfig where
  memory : Option MemoryConfig
  subagents : List (String × SubagentConfig)
deriving DecidableEq, Repr

/-- `Manager.validateUTF8File` (manager.go:151–162) on file content: Go
fails exactly when the decoded content contains the replacement character. -/
def validContentUTF8 (content : String) : Bool :=
  !(content.toList.contains (Char.ofNat 0xFFFD))

/-- The files `filepath.Walk` yields below `dir` with extension `.mdc`
(manager.go:170–176).  Walk order is lexical in Go; the model keeps the
file-system list's order, and no theorem depends on the order of files with
distinct base names. -/
def walkMdcFiles (fs : FS) (dir : String) : List (String × String) :=
  fs.filter fun kv => goHasPfx kv.1 (dir ++ "/") && goHasSfx kv.1 ".mdc"

/-- `Manager.loadSubagentsFromDir` (manager.go:165–192): for every `.mdc`
file under the directory, parse it and store it in the subagent map under
its base name without the extension — a plain Go map assignment, so a later
file with the same base name silently replaces an earlier one. -/
def loadSubagentsFromDir (fs : FS) (subagentDir : String)
    (subs : List (String × SubagentConfig)) : List (String × SubagentConfig) :=
  (walkMdcFiles fs subagentDir).foldl
    (fun acc kv =>
      let name := goTrimSfx (goBase kv.1) ".mdc"
      upsert acc name { name := name, content := kv.2 })
    subs

/-- `Manager.loadTeamMemory` (manager.go:195–223). -/
def loadTeamMemory (fs : FS) (teamSourcePath : String) (m : MemoryConfig) :
    Except String MemoryConfig :=
  if teamSourcePath = "" then .ok m
  else
    let p := joinPath teamSourcePath "memory.mdc"
    match fsRead fs p with
    | none => .ok m
    | some content =>
      if !validContentUTF8 content then
        .error "team memory file encoding validation failed"
      else if goTrimSpace content ≠ "" then
        .ok { m with teamContent := content, hasTeam := true, teamSourcePath := p }
      else .ok m

/-- `Manager.loadProjectMemory` (manager.go:226–254). -/
def loadProjectMemory (fs : FS) (projectPath : String) (m : MemoryConfig) :
    Except String MemoryConfig :=
  if projectPath = "" then .ok m
  else
    let p := joinPath projectPath "mindful/memory.mdc"
    match fsRead fs p with
    | none => .ok m
    | some content =>
      if !validContentUTF8 content then
        .error "project memory file encoding validation failed"
      else if goTrimSpace content ≠ "" then
        .ok { m with projectContent := content, hasProject := true, projectSourcePath := p }
      else .ok m

/-- `Manager.LoadDualScopeSource` (manager.go:257–293): load team then
project memory, keep the memory config only when a scope contributed, then
load team-scope subagents followed by project-scope subagents into the same
map. -/
def LoadDualScopeSource (fs : FS) (teamSourcePath projectPath : String) :
    Except String SourceConfig :=
  match loadTeamMemory fs teamSourcePath newMemoryConfig with
  | .error e => .error e
  | .ok m1 =>
    match loadProjectMemory fs projectPath m1 with
    | .error e => .error e
    | .ok m2 =>
      let memory := if m2.hasTeam || m2.hasProject then some m2 else none
      let subs1 :=
        if teamSourcePath ≠ "" then
          loadSubagentsFromDir fs (joinPath teamSourcePath "subagents") []
        else []
      let subs2 :=
        if projectPath ≠ "" then
          loadSubagentsFromDir fs (joinPath projectPath "mindful/subagents") subs1
        else subs1
      .ok { memory := memory, subagents := subs2 }

/-! ## JSON values (`encoding/json` generic values)

Go's `json.Unmarshal` into `interface{}` produces nested
`map[string]interface{}` / `[]interface{}` trees; `json.Marshal` of such a
tree prints maps with their keys in sorted (byte-lexicographic) order and
escapes `"` `\`, control characters, `<` `>` `&` and U+2028/U+2029 in
strings.  Numbers are modelled as integers: the engine's configurations
carry integral numbers, and floating-point formatting is outside the model.
An unordered Go map is represented by its canonically sorted association
list (`canon` below); duplicate keys in JSON text resolve last-wins as
`Unmarshal` does. -/

inductive Json where
  | null
  | bool (b : Bool)
  | num (n : Int)
  | str (s : String)
  | arr (elements : List Json)
  | obj (fields : List (String × Json))
deriving Repr

/-- Whether a generic value is a JSON object (a Go map). -/
def isObj : Json → Bool
  | .obj _ => true
  | _ => false

/-- The fields of an object (empty for non-objects, matching a failed Go
type assertion defaulting to an empty map). -/
def objFields : Json → List (String × Json)
  | .obj kvs => kvs
  | _ => []

/-- Lowercase hexadecimal digit. -/
def hexDigit (n : Nat) : Char := "0123456789abcdef".toList.getD n '0'

/-- How `encoding/json` escapes one character inside a string literal
(default encoder, HTML escaping on). -/
def escapeChar (c : Char) : List Char :=
  if c = '"' then ['\\', '"']
  else if c = '\\' then ['\\', '\\']
  else if c = '\n' then ['\\', 'n']
  else if c = '\r' then ['\\', 'r']
  else if c = '\t' then ['\\', 't']
  else if c = '<' then ['\\', 'u', '0', '0', '3', 'c']
  else if c = '>' then ['\\', 'u', '0', '0', '3', 'e']
  else if c = '&' then ['\\', 'u', '0', '0', '2', '6']
  else if c.toNat < 0x20 then
    ['\\', 'u', '0', '0', hexDigit (c.toNat / 16), hexDigit (c.toNat % 16)]
  else if c.toNat = 0x2028 then ['\\', 'u', '2', '0', '2', '8']
  else if c.toNat = 0x2029 then ['\\', 'u', '2', '0', '2', '9']
  else [c]

/-- A JSON string literal for `s`, quotes included. -/
def serializeStr (s : String) : String :=
  String.mk ('"' :: (s.toList.map escapeChar).flatten ++ ['"'])

/-- Decimal digits of a natural number. -/
def natToDigits (n : Nat) : List Char :=
  if n < 10 then [Char.ofNat (48 + n)]
  else natToDigits (n / 10) ++ [Char.ofNat (48 + n % 10)]
termination_by n
decreasing_by exact Nat.div_lt_self (by omega) (by omega)

/-- Go's formatting of an integral number. -/
def intToStr (n : Int) : String :=
  if n < 0 then String.mk ('-' :: natToDigits n.natAbs)
  else String.mk (natToDigits n.natAbs)

/-- Build a Go map from successive assignments: duplicate keys last-wins. -/
def dedupKeys (kvs : List (String × Json)) : List (String × Json) :=
  kvs.foldl (fun acc kv => upsert acc kv.1 kv.2) []

/-- Sort map fields by key, the order `json.Marshal` prints a map in
(UTF-8 byte order, which agrees with code-point order). -/
def sortFields (kvs : List (String × Json)) : List (String × Json) :=
  kvs.insertionSort (fun a b => a.1 ≤ b.1)

mutual

/-- Canonical form of a generic value: every object becomes its
deduplicated (last-wins), key-sorted association list, recursively.  This
is the representation invariant of values held in Go maps. -/
def canon : Json → Json
  | .null => .null
  | .bool b => .bool b
  | .num n => .num n
  | .str s => .str s
  | .arr xs => .arr (canonList xs)
  | .obj kvs => .obj (sortFields (dedupKeys (canonFields kvs)))

def canonList : List Json → List Json
  | [] => []
  | x :: xs => canon x :: canonList xs

def canonFields : List (String × Json) → List (String × Json)
  | [] => []
  | (k, v) :: kvs => (k, canon v) :: canonFields kvs

end

mutual

/-- Serialize a value as `json.Marshal` does, assuming object fields are
already in canonical order (see `marshal`). -/
def serializeRaw : Json → String
  | .null => "null"
  | .bool true => "true"
  | .bool false => "false"
  | .num n => intToStr n
  | .str s => serializeStr s
  | .arr xs => "[" ++ serializeElems xs ++ "]"
  | .obj kvs => "\x7b" ++ serializeFields kvs ++ "\x7d"

def serializeElems : List Json → String
  | [] => ""
  | [x] => serializeRaw x
  | x :: y :: xs => serializeRaw x ++ "," ++ serializeElems (y :: xs)

def serializeFields : List (String × Json) → String
  | [] => ""
  | [(k, v)] => serializeStr k ++ ":" ++ serializeRaw v
  | (k, v) :: kv :: kvs =>
    serializeStr k ++ ":" ++ serializeRaw v ++ "," ++ serializeFields (kv :: kvs)

end

/-- `json.Marshal` of a generic value. -/
def marshal (v : Json) : String := serializeRaw (canon v)

/-! ### JSON parsing (`json.Unmarshal`), fuel-indexed so that every
recursion is structural and the kernel can evaluate concrete parses. -/

/-- JSON insignificant whitespace. -/
def jsonWs (c : Char) : Bool := c = ' ' || c = '\t' || c = '\n' || c = '\r'

/-- Skip insignificant whitespace. -/
def skipWs (cs : List Char) : List Char := cs.dropWhile jsonWs

/-- ASCII decimal digit test. -/
def isDigitC (c : Char) : Bool := '0' ≤ c && c ≤ '9'

/-- Numeric value of a decimal digit. -/
def digitVal (c : Char) : Nat := c.toNat - 48

/-- Numeric value of a lowercase-hex digit, 16 on other input. -/
def hexVal (c : Char) : Nat :=
  if isDigitC c then c.toNat - 48
  else if 'a' ≤ c && c ≤ 'f' then c.toNat - 87
  else 16

/-- Consume a run of decimal digits, accumulating its value. -/
def parseDigits : List Char → Nat → Nat × List Char
  | c :: cs, acc => if isDigitC c then parseDigits cs (acc * 10 + digitVal c) else (acc, c :: cs)
  | [], acc => (acc, [])

/-- Parse the body of a string literal after the opening quote, undoing
`escapeChar`; the fuel bounds the number of decoded characters. -/
def parseStringBody : Nat → List Char → Option (List Char × List Char)
  | 0, _ => none
  | _, [] => none
  | fuel + 1, c :: cs =>
    if c = '"' then some ([], cs)
    else if c = '\\' then
      match cs with
      | [] => none
      | e :: cs' =>
        let cont (d : Char) (rest : List Char) : Option (List Char × List Char) :=
          (parseStringBody fuel rest).map (fun sr => (d :: sr.1, sr.2))
        if e = '"' then cont '"' cs'
        else if e = '\\' then cont '\\' cs'
        else if e = '/' then cont '/' cs'
        else if e = 'n' then cont '\n' cs'
        else if e = 'r' then cont '\r' cs'
        else if e = 't' then cont '\t' cs'
        else if e = 'b' then cont (Char.ofNat 8) cs'
        else if e = 'f' then cont (Char.ofNat 12) cs'
        else if e = 'u' then
          match cs' with
          | h1 :: h2 :: h3 :: h4 :: cs'' =>
            if hexVal h1 < 16 && hexVal h2 < 16 && hexVal h3 < 16 && hexVal h4 < 16 then
              let n := hexVal h1 * 4096 + hexVal h2 * 256 + hexVal h3 * 16 + hexVal h4
              if n < 0xD800 then cont (Char.ofNat n) cs'' else none
            else none
          | _ => none
        else none
    else (parseStringBody fuel cs).map (fun sr => (c :: sr.1, sr.2))

/-- Parse a JSON number (integral model: an optional minus sign and a
nonempty digit run). -/
def parseNumber : List Char → Option (Int × List Char)
  | '-' :: cs =>
    match cs with
    | c :: _ =>
      if isDigitC c then
        let dr := parseDigits cs 0
        some (-(dr.1 : Int), dr.2)
      else none
    | [] => none
  | c :: cs =>
    if isDigitC c then
      let dr := parseDigits (c :: cs) 0
      some ((dr.1 : Int), dr.2)
    else none
  | [] => none

mutual

/-- Parse one JSON value.  Fuel decreases at every recursive call; any
fuel larger than the node count of the value suffices. -/
def parseVal : Nat → List Char → Option (Json × List Char)
  | 0, _ => none
  | fuel + 1, cs =>
    match skipWs cs with
    | [] => none
    | c :: cs' =>
      if c = '\x7b' then
        match skipWs cs' with
        | '\x7d' :: rest => some (.obj [], rest)
        | _ => (parseFields fuel cs').map (fun fr => (.obj fr.1, fr.2))
      else if c = '[' then
        match skipWs cs' with
        | ']' :: rest => some (.arr [], rest)
        | _ => (parseElems fuel cs').map (fun er => (.arr er.1, er.2))
      else if c = '"' then
        (parseStringBody (cs'.length + 1) cs').map (fun sr => (.str (String.mk sr.1), sr.2))
      else if c = 't' then
        match cs' with
        | 'r' :: 'u' :: 'e' :: rest => some (.bool true, rest)
        | _ => none
      else if c = 'f' then
        match cs' with
        | 'a' :: 'l' :: 's' :: 'e' :: rest => some (.bool false, rest)
        | _ => none
      else if c = 'n' then
        match cs' with
        | 'u' :: 'l' :: 'l' :: rest => some (.null, rest)
        | _ => none
      else
        (parseNumber (c :: cs')).map (fun nr => (.num nr.1, nr.2))

/-- Parse the members of an object after the opening brace (the non-empty
case). -/
def parseFields : Nat → List Char → Option (List (String × Json) × List Char)
  | 0, _ => none
  | fuel + 1, cs =>
    match skipWs cs with
    | '"' :: cs' =>
      match parseStringBody (cs'.length + 1) cs' with
      | none => none
      | some kr =>
        match skipWs kr.2 with
        | ':' :: cs'' =>
          match parseVal fuel cs'' with
          | none => none
          | some vr =>
            match skipWs vr.2 with
            | ',' :: rest =>
              (parseFields fuel rest).map
                (fun fr => ((String.mk kr.1, vr.1) :: fr.1, fr.2))
            | '\x7d' :: rest => some ([(String.mk kr.1, vr.1)], rest)
            | _ => none
        | _ => none
    | _ => none

/-- Parse the elements of an array after the opening bracket (the
non-empty case). -/
def parseElems : Nat → List Char → Option (List Json × List Char)
  | 0, _ => none
  | fuel + 1, cs =>
    match parseVal fuel cs with
    | none => none
    | some vr =>
      match skipWs vr.2 with
      | ',' :: rest => (parseElems fuel rest).map (fun er => (vr.1 :: er.1, er.2))
      | ']' :: rest => some ([vr.1], rest)
      | _ => none

end

/-- Parse a whole JSON document: one value and nothing but whitespace
after it. -/
def parseJson (s : String) : Option Json :=
  match parseVal (s.toList.length + 1) s.toList with
  | some vr => if skipWs vr.2 = [] then some vr.1 else none
  | none => none

/-- `json.Unmarshal` into a generic Go value: parse, then take the map
view (unordered, duplicate keys last-wins), i.e. the canonical form. -/
def goUnmarshal (s : String) : Option Json := (parseJson s).map canon

/-! ### Byte encodings: UTF-8 and base64 (`encoding/base64` StdEncoding) -/

/-- UTF-8 bytes of one character. -/
def utf8EncodeChar (c : Char) : List Nat :=
  let n := c.toNat
  if n < 0x80 then [n]
  else if n < 0x800 then [0xC0 + n / 0x40, 0x80 + n % 0x40]
  else if n < 0x10000 then
    [0xE0 + n / 0x1000, 0x80 + (n / 0x40) % 0x40, 0x80 + n % 0x40]
  else
    [0xF0 + n / 0x40000, 0x80 + (n / 0x1000) % 0x40, 0x80 + (n / 0x40) % 0x40,
      0x80 + n % 0x40]

/-- The UTF-8 byte sequence of a string (Go's `[]byte(s)`). -/
def utf8Encode (s : String) : List Nat := (s.toList.map utf8EncodeChar).flatten

/-- Combine a 2-byte UTF-8 lead/continuation pair with the decoded tail. -/
def utf8Dec2 (b b2 : Nat) (r : Option (List Nat)) : Option (List Nat) :=
  if 0x80 ≤ b2 && b2 < 0xC0 then
    r.map (((b - 0xC0) * 0x40 + (b2 - 0x80)) :: ·)
  else none

/-- Combine a 3-byte UTF-8 sequence with the decoded tail. -/
def utf8Dec3 (b b2 b3 : Nat) (r : Option (List Nat)) : Option (List Nat) :=
  if (0x80 ≤ b2 && b2 < 0xC0) && (0x80 ≤ b3 && b3 < 0xC0) then
    r.map (((b - 0xE0) * 0x1000 + (b2 - 0x80) * 0x40 + (b3 - 0x80)) :: ·)
  else none

/-- Combine a 4-byte UTF-8 sequence with the decoded tail. -/
def utf8Dec4 (b b2 b3 b4 : Nat) (r : Option (List Nat)) : Option (List Nat) :=
  if ((0x80 ≤ b2 && b2 < 0xC0) && (0x80 ≤ b3 && b3 < 0xC0)) &&
      (0x80 ≤ b4 && b4 < 0xC0) then
    r.map (((b - 0xF0) * 0x40000 + (b2 - 0x80) * 0x1000 + (b3 - 0x80) * 0x40 +
      (b4 - 0x80)) :: ·)
  else none

/-- Decode UTF-8 bytes to code points; the fuel bounds the number of
decoded characters so that every recursion is structural. -/
def utf8DecodeLoop : Nat → List Nat → Option (List Nat)
  | 0, _ => none
  | _ + 1, [] => some []
  | fuel + 1, b :: bs =>
    if b < 0x80 then (utf8DecodeLoop fuel bs).map (b :: ·)
    else if b < 0xC0 then none
    else if b < 0xE0 then
      match bs with
      | b2 :: bs2 => utf8Dec2 b b2 (utf8DecodeLoop fuel bs2)
      | _ => none
    else if b < 0xF0 then
      match bs with
      | b2 :: b3 :: bs2 => utf8Dec3 b b2 b3 (utf8DecodeLoop fuel bs2)
      | _ => none
    else if b < 0xF8 then
      match bs with
      | b2 :: b3 :: b4 :: bs2 => utf8Dec4 b b2 b3 b4 (utf8DecodeLoop fuel bs2)
      | _ => none
    else none

/-- Decode UTF-8 bytes to code points (any fuel past the byte count is
enough). -/
def utf8Decode (bs : List Nat) : Option (List Nat) :=
  utf8DecodeLoop (bs.length + 1) bs

/-- Decode UTF-8 bytes back to a string (Go's `string(b)` on valid input). -/
def utf8DecodeStr (bs : List Nat) : Option String :=
  (utf8Decode bs).map (fun ns => String.mk (ns.map Char.ofNat))

/-- The base64 standard alphabet. -/
def b64Alphabet : List Char :=
  "ABCDEFGHIJKLMNOPQRSTUVWXYZabcdefghijklmnopqrstuvwxyz0123456789+/".toList

/-- Character for a sextet. -/
def b64Char (n : Nat) : Char := b64Alphabet.getD n 'A'

/-- Sextet for a character, when it is in the alphabet. -/
def b64ValOpt (c : Char) : Option Nat := b64Alphabet.findIdx? (· = c)

/-- `base64.StdEncoding.EncodeToString`: three bytes become four
characters, with `=` padding for a short final chunk. -/
def base64Encode : List Nat → List Char
  | [] => []
  | [b1] => [b64Char (b1 / 4), b64Char (b1 % 4 * 16), '=', '=']
  | [b1, b2] => [b64Char (b1 / 4), b64Char (b1 % 4 * 16 + b2 / 16), b64Char (b2 % 16 * 4), '=']
  | b1 :: b2 :: b3 :: bs =>
    b64Char (b1 / 4) :: b64Char (b1 % 4 * 16 + b2 / 16) ::
      b64Char (b2 % 16 * 4 + b3 / 64) :: b64Char (b3 % 64) :: base64Encode bs

/-- `base64.StdEncoding.EncodeToString` as a string. -/
def base64EncodeStr (bs : List Nat) : String := String.mk (base64Encode bs)

/-- `base64.StdEncoding.DecodeString`. -/
def base64Decode : List Char → Option (List Nat)
  | [] => some []
  | c1 :: c2 :: c3 :: c4 :: rest =>
    match b64ValOpt c1, b64ValOpt c2 with
    | some v1, some v2 =>
      if c3 = '=' then
        if c4 = '=' && rest = [] then some [v1 * 4 + v2 / 16] else none
      else
        match b64ValOpt c3 with
        | some v3 =>
          if c4 = '=' then
            if rest = [] then some [v1 * 4 + v2 / 16, v2 % 16 * 16 + v3 / 4] else none
          else
            match b64ValOpt c4 with
            | some v4 =>
              (base64Decode rest).map
                (fun bs => (v1 * 4 + v2 / 16) :: (v2 % 16 * 16 + v3 / 4) ::
                  (v3 % 4 * 64 + v4) :: bs)
            | none => none
        | none => none
    | _, _ => none
  | _ => none

/-! ## MCP configuration store (src/models/mcp.go) -/

/-- `models.MCPConfig`: server name → base64-of-JSON blob. -/
structure MCPConfig where
  servers : List (String × String)
deriving DecidableEq, Repr

/-- `models.NewMCPConfig`. -/
def newMCPConfig : MCPConfig := { servers := [] }

/-- `MCPConfig.AddServer` (mcp.go:23–39): marshal the configuration to
JSON, base64-encode the bytes, store under the server name. -/
def AddServer (m : MCPConfig) (serverName : String) (config : Json) : MCPConfig :=
  { servers := upsert m.servers serverName (base64EncodeStr (utf8Encode (marshal config))) }

/-- `MCPConfig.GetServer` (mcp.go:42–66): look up the blob, decode the
base64, and unmarshal the JSON into a Go map — which fails when the stored
document is not an object. -/
def GetServer (m : MCPConfig) (serverName : String) : Except String Json :=
  match assocLookup m.servers serverName with
  | none => .error ("server " ++ serverName ++ " not found")
  | some encoded =>
    match base64Decode encoded.toList with
    | none => .error ("failed to decode server config for " ++ serverName)
    | some bytes =>
      match utf8DecodeStr bytes with
      | none => .error ("failed to decode server config for " ++ serverName)
      | some text =>
        match goUnmarshal text with
        | some v =>
          if isObj v then .ok v
          else .error ("failed to unmarshal server config for " ++ serverName)
        | none => .error ("failed to unmarshal server config for " ++ serverName)

/-! ## MCP file merge (`Adapter.mergeMCPFiles`, part_015:408–474) -/

/-- The server-map merge loop of `mergeMCPFiles` (part_015:432–454): copy
the existing servers, then for each generated server either detect a
per-name conflict (same name, different `json.Marshal` image — the entry is
not replaced) or insert it when new. -/
def mergeServers (existingServers newServers : List (String × Json)) :
    List (String × Json) × Bool :=
  newServers.foldl
    (fun acc kv =>
      match assocLookup acc.1 kv.1 with
      | some ex => if marshal ex ≠ marshal kv.2 then (acc.1, true) else acc
      | none => (upsert acc.1 kv.1 kv.2, acc.2))
    (dedupKeys existingServers, false)

/-- The `mcpServers` map of a parsed MCP document (part_015:422–430): a
failed type assertion falls back to an empty map. -/
def mcpServersOf (v : Json) : List (String × Json) :=
  match assocLookup (objFields v) "mcpServers" with
  | some (.obj kvs) => kvs
  | _ => []

/-- `Adapter.mergeMCPFiles` (part_015:408–474): unmarshal both documents,
merge their `mcpServers` maps per server name, and marshal the merged map
back; the boolean reports whether any same-name pair differed. -/
def mergeMCPFiles (existing newFile : ConfigFile) : Except String (ConfigFile × Bool) :=
  match goUnmarshal existing.content with
  | none => .error "failed to parse existing MCP config"
  | some exJ =>
    if ¬ isObj exJ then .error "failed to parse existing MCP config"
    else
      match goUnmarshal newFile.content with
      | none => .error "failed to parse new MCP config"
      | some newJ =>
        if ¬ isObj newJ then .error "failed to parse new MCP config"
        else
          let merged := mergeServers (mcpServersOf exJ) (mcpServersOf newJ)
          .ok ({ path := newFile.path,
                 content := marshal (.obj [("mcpServers", .obj merged.1)]),
                 ftype := newFile.ftype }, merged.2)

/-! ## Canonical values and parser bookkeeping -/

/-- True when `cs` does not start with a decimal digit: the condition
under which `parseDigits` stops exactly at `cs`. -/
def noDigitHead : List Char → Bool
  | [] => true
  | c :: _ => !isDigitC c

/-- Strictly increasing key list: the shape `json.Marshal` sorted,
deduplicated object keys have. -/
def strictSorted : List String → Bool
  | [] => true
  | [_] => true
  | a :: b :: rest => decide (a < b) && strictSorted (b :: rest)

mutual

/-- A value is canonical when every object inside it is deduplicated and
key-sorted — exactly the image of `canon`. -/
def isCanon : Json → Bool
  | .null => true
  | .bool _ => true
  | .num _ => true
  | .str _ => true
  | .arr xs => isCanonList xs
  | .obj kvs => strictSorted (kvs.map (·.1)) && isCanonFields kvs

def isCanonList : List Json → Bool
  | [] => true
  | x :: xs => isCanon x && isCanonList xs

def isCanonFields : List (String × Json) → Bool
  | [] => true
  | (_, v) :: kvs => isCanon v && isCanonFields kvs

end

/-! ## General lemmas about the map and file-system model -/

theorem assocLookup_upsert_self {α : Type} (m : List (String × α)) (k : String) (v : α) :
    assocLookup (upsert m k v) k = some v := by
  induction m with
  | nil => simp [upsert, assocLookup]
  | cons kv rest ih =>
    by_cases h : kv.1 = k
    · simp [upsert, h, assocLookup]
    · simp only [upsert]
      rw [if_neg (by exact h)]
      simpa [assocLookup, h] using ih

theorem assocLookup_upsert_ne {α : Type} (m : List (String × α)) (k k' : String) (v : α)
    (h : k' ≠ k) : assocLookup (upsert m k v) k' = assocLookup m k' := by
  induction m with
  | nil => simp [upsert, assocLookup, List.find?, (Ne.symm h : ¬ k = k')]
  | cons kv rest ih =>
    by_cases hk : kv.1 = k
    · subst hk
      simp [upsert, assocLookup, Ne.symm h, h]
    · simp only [upsert]
      rw [if_neg (by exact hk)]
      by_cases hk' : kv.1 = k'
      · simp [assocLookup, hk']
      · simpa [assocLookup, hk'] using ih

theorem fsRead_writeFile_self (fs : FS) (p c : String) :
    fsRead (writeFile fs p c) p = some c := by
  simpa [writeFile, writeFileOps, applyOps, applyOp] using
    assocLookup_upsert_self fs p c

theorem fsRead_writeFile_ne (fs : FS) (p c q : String) (h : q ≠ p) :
    fsRead (writeFile fs p c) q = fsRead fs q := by
  simpa [writeFile, writeFileOps, applyOps, applyOp] using
    assocLookup_upsert_ne fs p q c h

/-! ## Claim C7 -/

/-- The property claim C7 asserts of the engine's file writes: the content
reaches a temporary path first and then an atomic rename moves it into
place. -/
def usesTempThenRename (path content : String) : Prop :=
  ∃ tmp, tmp ≠ path ∧
    FsOp.write tmp content ∈ writeFileOps path content ∧
    FsOp.rename tmp path ∈ writeFileOps path content

/-- Claim C7 is false on the code: at the concrete write of `"hello"` to
`"a/b.md"`, `Manager.writeFile`'s operation trace contains no rename at
all, so no temporary-file-then-rename protocol is used. -/
theorem writeFile_temp_rename_counterexample :
    ¬ usesTempThenRename "a/b.md" "hello" := by
  rintro ⟨tmp, -, -, hren⟩
  simp [writeFileOps] at hren

/-- Claim C7 (amended): `Manager.writeFile` creates the destination
directory and then writes the final content directly to the target path in
a single write; its operation trace contains no rename (and no temporary
file), and the write replaces the target's content in full while leaving
every other path untouched. -/
theorem writeFile_direct_write (fs : FS) (path content : String) :
    (∀ op ∈ writeFileOps path content, ¬ op.isRename) ∧
    (∀ op ∈ writeFileOps path content, ∀ p c, op = FsOp.write p c → p = path ∧ c = content) ∧
    fsRead (writeFile fs path content) path = some content ∧
    (∀ q, q ≠ path → fsRead (writeFile fs path content) q = fsRead fs q) := by
  refine ⟨?_, ?_, fsRead_writeFile_self fs path content,
    fun q hq => fsRead_writeFile_ne fs path content q hq⟩
  · intro op hop
    simp only [writeFileOps, List.mem_cons, List.mem_singleton] at hop
    rcases hop with h | h | h
    · simp [h, FsOp.isRename]
    · simp [h, FsOp.isRename]
    · cases h
  · intro op hop p c heq
    simp only [writeFileOps, List.mem_cons, List.mem_singleton] at hop
    rcases hop with h | h | h
    · rw [h] at heq; cases heq
    · rw [h] at heq
      cases heq
      exact ⟨rfl, rfl⟩
    · cases h

/-- Witness for `writeFile_direct_write` at a concrete input. -/
theorem writeFile_direct_write_witness :
    fsRead (writeFile [] "a/b.md" "hello") "a/b.md" = some "hello" :=
  (writeFile_direct_write [] "a/b.md" "hello").2.2.1

/-! ## Claim C3 -/

/-- One line of a shared memory file is the owned marker heading: a level-1
heading whose trimmed title case-folds to `WEXLER`. -/
def isWexlerLine (l : String) : Bool :=
  goHasPfx l "# " && goEqualFold (goTrimSpace (goTrimPfx l "# ")) "WEXLER"

/-- The file text contains the owned marker heading on some line. -/
def hasWexlerHeading (content : String) : Bool :=
  (splitLines content).any isWexlerLine

theorem extractWexlerScan_no_marker (lines : List String)
    (h : ∀ l ∈ lines, isWexlerLine l = false) (found : Bool) (acc : List String) :
    extractWexlerScan lines false found acc = (found, acc) := by
  induction lines with
  | nil => simp [extractWexlerScan]
  | cons l ls ih =>
    have hl : isWexlerLine l = false := h l (by simp)
    have hls : ∀ l' ∈ ls, isWexlerLine l' = false := fun l' hl' => h l' (by simp [hl'])
    simp only [extractWexlerScan]
    by_cases hp : goHasPfx l "# "
    · have hfold : goEqualFold (goTrimSpace (goTrimPfx l "# ")) "WEXLER" = false := by
        simpa [isWexlerLine, hp] using hl
      simp [hp, hfold, ih hls]
    · simp [hp, ih hls]

/-- When the marker heading is absent, the extractor returns the empty
string (content_extractor.go:117–119). -/
theorem extractWexlerSection_no_marker (content : String)
    (h : hasWexlerHeading content = false) :
    extractWexlerSection content = "" := by
  unfold extractWexlerSection
  by_cases hc : content = ""
  · simp [hc]
  · have hall : ∀ l ∈ splitLines content, isWexlerLine l = false := by
      intro l hl
      by_contra hne
      have : (splitLines content).any isWexlerLine = true :=
        List.any_eq_true.mpr ⟨l, hl, by revert hne; cases isWexlerLine l <;> simp⟩
      rw [hasWexlerHeading] at h
      rw [h] at this
      cases this
    simp [hc, extractWexlerScan_no_marker _ hall]

/-- The conflicts one file contributes to `Manager.DetectConflicts`. -/
def detectOne (cfg : ApplyCfg) (fs : FS) (f : ConfigFile) : List FileConflict :=
  let target := joinPath cfg.projectPath f.path
  if fileExists fs target then
    let existing := extractExistingContent fs target cfg.toolName f.ftype
    if existing ≠ f.content then [createConflict f.path existing f.content f.ftype]
    else []
  else []

theorem detectConflictsRun_eq_flatten (cfg : ApplyCfg) (files : List ConfigFile) (fs : FS) :
    detectConflictsRun cfg files fs = (files.map (detectOne cfg fs)).flatten := by
  suffices h : ∀ acc : List FileConflict,
      files.foldl
        (fun acc f =>
          let target := joinPath cfg.projectPath f.path
          if fileExists fs target then
            let existing := extractExistingContent fs target cfg.toolName f.ftype
            if existing ≠ f.content then
              acc ++ [createConflict f.path existing f.content f.ftype]
            else acc
          else acc)
        acc = acc ++ (files.map (detectOne cfg fs)).flatten by
    simpa [detectConflictsRun] using h []
  induction files with
  | nil => intro acc; simp
  | cons f rest ih =>
    intro acc
    simp only [List.foldl_cons, List.map_cons, List.flatten_cons]
    rw [ih]
    have hstep :
        (let target := joinPath cfg.projectPath f.path
          if fileExists fs target then
            let existing := extractExistingContent fs target cfg.toolName f.ftype
            if existing ≠ f.content then
              acc ++ [createConflict f.path existing f.content f.ftype]
            else acc
          else acc) = acc ++ detectOne cfg fs f := by
      simp only [detectOne]
      by_cases h1 : fileExists fs (joinPath cfg.projectPath f.path)
      · by_cases h2 :
          extractExistingContent fs (joinPath cfg.projectPath f.path) cfg.toolName f.ftype
            = f.content
        · simp [h1, h2]
        · simp [h1, h2]
      · simp [h1]
    rw [hstep, List.append_assoc]

/-- Claim C3 is false on the code: with an existing `p/CLAUDE.md` that has
no `WEXLER` marker (`"# Other\nstuff"`) and non-empty generated memory
content `"hello"`, `Manager.DetectConflicts` reports a conflict for that
path rather than treating the situation as pure creation. -/
theorem detect_no_marker_counterexample :
    detectConflictsRun
      { projectPath := "p", toolName := "claude", dryRun := false, force := false }
      [{ path := "CLAUDE.md", content := "hello", ftype := "memory" }]
      [("p/CLAUDE.md", "# Other\nstuff")] ≠ [] := by
  decide

/-- Claim C3 (amended): for every existing shared memory file with no owned
marker heading and every *non-empty* generated memory content for that
path, `Manager.DetectConflicts` reports a conflict for the path — the
extractor returns the empty string, which differs from the non-empty
generated content, so the existing file is *not* treated as pure creation. -/
theorem detect_no_marker_reports_conflict (cfg : ApplyCfg) (f : ConfigFile)
    (files : List ConfigFile) (fs : FS) (existing : String)
    (htool : cfg.toolName = "claude") (hmem : f.ftype = "memory")
    (hfile : fsRead fs (joinPath cfg.projectPath f.path) = some existing)
    (hsfx : goHasSfx (joinPath cfg.projectPath f.path) "CLAUDE.md" = true)
    (hmarker : hasWexlerHeading existing = false)
    (hne : f.content ≠ "")
    (hf : f ∈ files) :
    createConflict f.path "" f.content f.ftype ∈ detectConflictsRun cfg files fs := by
  have hexists : fileExists fs (joinPath cfg.projectPath f.path) = true := by
    simp [fileExists, hfile]
  have hex : extractExistingContent fs (joinPath cfg.projectPath f.path) cfg.toolName f.ftype
      = "" := by
    simp only [extractExistingContent, hexists, htool]
    simp only [hfile, Option.getD_some]
    simp [extractClaudeContent, hmem, hsfx, extractWexlerSection_no_marker existing hmarker]
  have hone : detectOne cfg fs f = [createConflict f.path "" f.content f.ftype] := by
    simp only [detectOne, hexists, if_true, hex]
    rw [if_pos (by exact fun hc => hne hc.symm)]
  rw [detectConflictsRun_eq_flatten]
  exact List.mem_flatten.mpr ⟨detectOne cfg fs f, List.mem_map_of_mem _ hf, by simp [hone]⟩

/-- Witness for `detect_no_marker_reports_conflict` at the counterexample's
concrete input. -/
theorem detect_no_marker_reports_conflict_witness :
    createConflict "CLAUDE.md" "" "hello" "memory" ∈
      detectConflictsRun
        { projectPath := "p", toolName := "claude", dryRun := false, force := false }
        [{ path := "CLAUDE.md", content := "hello", ftype := "memory" }]
        [("p/CLAUDE.md", "# Other\nstuff")] :=
  detect_no_marker_reports_conflict
    { projectPath := "p", toolName := "claude", dryRun := false, force := false }
    { path := "CLAUDE.md", content := "hello", ftype := "memory" }
    _ _ "# Other\nstuff" rfl rfl (by decide) (by decide) (by decide)
    (by decide) (by decide)

/-! ## Lines round-trip lemmas -/

theorem splitLinesL_ne_nil (cs : List Char) : splitLinesL cs ≠ [] := by
  induction cs with
  | nil => simp [splitLinesL]
  | cons c cs ih =>
    simp only [splitLinesL, List.foldr_cons]
    by_cases h : c = '\n'
    · simp [h]
    · simp only [if_neg h]
      rcases hcs : splitLinesL cs with _ | ⟨l, ls⟩
      · exact absurd hcs ih
      · simp only [splitLinesL] at hcs
        rw [hcs]
        simp

theorem splitLinesL_cons_newline (cs : List Char) :
    splitLinesL ('\n' :: cs) = [] :: splitLinesL cs := by
  simp [splitLinesL]

theorem splitLinesL_append_nlfree (xs ys : List Char) (h : ∀ c ∈ xs, c ≠ '\n') :
    splitLinesL (xs ++ ys) =
      (xs ++ (splitLinesL ys).headI) :: (splitLinesL ys).tail := by
  induction xs with
  | nil =>
    rcases hys : splitLinesL ys with _ | ⟨l, ls⟩
    · exact absurd hys (splitLinesL_ne_nil ys)
    · simp [hys]
  | cons c xs ih =>
    have hc : c ≠ '\n' := h c (by simp)
    have hxs : ∀ c' ∈ xs, c' ≠ '\n' := fun c' hc' => h c' (by simp [hc'])
    simp only [List.cons_append, splitLinesL, List.foldr_cons, if_neg hc]
    have : splitLinesL (xs ++ ys) =
        (xs ++ (splitLinesL ys).headI) :: (splitLinesL ys).tail := ih hxs
    simp only [splitLinesL] at this
    rw [this]

theorem strMk_toList (s : String) : String.mk s.toList = s := rfl

theorem toList_append (a b : String) : (a ++ b).toList = a.toList ++ b.toList := rfl

/-- Splitting the joined lines gives back the lines, when none of them
contains a newline. -/
theorem splitLines_joinLines (lines : List String) (hne : lines ≠ [])
    (h : ∀ l ∈ lines, '\n' ∉ l.toList) :
    splitLines (joinLines lines) = lines := by
  induction lines with
  | nil => exact absurd rfl hne
  | cons l ls ih =>
    rcases ls with _ | ⟨l', ls'⟩
    · have hl : ∀ c ∈ l.toList, c ≠ '\n' := by
        intro c hc hcn
        exact h l (by simp) (hcn ▸ hc)
      have h1 := splitLinesL_append_nlfree l.toList [] hl
      simp only [List.append_nil] at h1
      have h2 : splitLinesL l.toList = [l.toList] := by simpa [splitLinesL] using h1
      simp only [joinLines, goJoin, splitLines]
      rw [h2]
      simp [strMk_toList]
    · have hl : ∀ c ∈ l.toList, c ≠ '\n' := by
        intro c hc hcn
        exact h l (by simp) (hcn ▸ hc)
      have hrest : ∀ x ∈ l' :: ls', '\n' ∉ x.toList := fun x hx => h x (by simp [hx])
      have hjoin : joinLines (l :: l' :: ls') = l ++ "\n" ++ joinLines (l' :: ls') := by
        simp [joinLines, goJoin]
      have hdata : (joinLines (l :: l' :: ls')).toList =
          l.toList ++ '\n' :: (joinLines (l' :: ls')).toList := by
        rw [hjoin]
        simp [toList_append]
      simp only [splitLines, hdata]
      rw [splitLinesL_append_nlfree _ _ hl, splitLinesL_cons_newline]
      have ihr := ih (by simp)
      have ihr' : splitLinesL (joinLines (l' :: ls')).toList =
          (l' :: ls').map String.toList := by
        have := ihr hrest
        simp only [splitLines] at this
        have hmapinj : ∀ (a : List (List Char)) (b : List String),
            a.map String.mk = b → a = b.map String.toList := by
          intro a b hab
          have h3 := congrArg (List.map String.toList) hab
          simpa [List.map_map, Function.comp_def] using h3
        exact hmapinj _ _ this
      rw [ihr']
      simp [strMk_toList, Function.comp_def]

/-! ## Claim C8 -/

theorem goHasPfx_hash_of_head_lt (s : String) (h : s.toList.head? = some '<') :
    goHasPfx s "# " = false := by
  have hpl : "# ".toList = ['#', ' '] := rfl
  rcases hs : s.toList with _ | ⟨c, cs⟩
  · rw [hs] at h; cases h
  · rw [hs] at h
    have hc : c = '<' := by
      simpa using h
    have hs' : s.data = c :: cs := hs
    simp [goHasPfx, hpl, hs', hc, List.isPrefixOf]

/-- Claim C8: for the memory input whose team scope text is
`"# Standards\nUse conventions."` and whose project scope is empty, the
generated claude memory content is exactly the `Standards` heading
annotated with the team-scope suffix, the source-provenance comment under
it, a blank separator, and the untouched body line — so it has exactly one
top-level heading (the annotated team one) and no project-scope heading.
The team source path is arbitrary as long as it spans a single line. -/
theorem memory_scenario_team_only (p : String) (hp : '\n' ∉ p.toList) :
    splitLines (GenerateClaudeMemoryContent (some
      { newMemoryConfig with
          teamContent := "# Standards\nUse conventions.", hasTeam := true,
          teamSourcePath := p })) =
      ["# Standards -- Mindful (scope:team)", "<!-- Source: " ++ p ++ " -->", "",
        "Use conventions."] ∧
    (splitLines (GenerateClaudeMemoryContent (some
      { newMemoryConfig with
          teamContent := "# Standards\nUse conventions.", hasTeam := true,
          teamSourcePath := p }))).filter (fun l => goHasPfx l "# ") =
      ["# Standards -- Mindful (scope:team)"] := by
  have hgen : GenerateClaudeMemoryContent (some
      { newMemoryConfig with
          teamContent := "# Standards\nUse conventions.", hasTeam := true,
          teamSourcePath := p }) =
      joinLines ["# Standards -- Mindful (scope:team)", "<!-- Source: " ++ p ++ " -->", "",
        "Use conventions."] := by
    rfl
  refine ⟨?_, ?_⟩
  · rw [hgen]
    refine splitLines_joinLines _ (by simp) ?_
    intro l hl
    simp only [List.mem_cons, List.not_mem_nil, or_false] at hl
    rcases hl with h | h | h | h
    · rw [h]; decide
    · rw [h]
      have hd : ("<!-- Source: " ++ p ++ " -->").toList =
          "<!-- Source: ".toList ++ p.toList ++ " -->".toList := by
        simp [toList_append]
      rw [hd]
      intro hmem
      rcases List.mem_append.mp hmem with hmem' | hmem'
      · rcases List.mem_append.mp hmem' with hmem'' | hmem''
        · revert hmem''; decide
        · exact hp hmem''
      · revert hmem'; decide
    · rw [h]; decide
    · rw [h]; decide
  · rw [hgen]
    rw [splitLines_joinLines _ (by simp) ?_]
    · have hf1 : goHasPfx "# Standards -- Mindful (scope:team)" "# " = true := by decide
      have hf2' : goHasPfx ("<!-- Source: " ++ p ++ " -->") "# " = false :=
        goHasPfx_hash_of_head_lt _ rfl
      have hf3 : goHasPfx "" "# " = false := by decide
      have hf4 : goHasPfx "Use conventions." "# " = false := by decide
      simp [List.filter, hf1, hf2', hf3, hf4]
    · intro l hl
      simp only [List.mem_cons, List.not_mem_nil, or_false] at hl
      rcases hl with h | h | h | h
      · rw [h]; decide
      · rw [h]
        have hd : ("<!-- Source: " ++ p ++ " -->").toList =
            "<!-- Source: ".toList ++ p.toList ++ " -->".toList := by
          simp [toList_append]
        rw [hd]
        intro hmem
        rcases List.mem_append.mp hmem with hmem' | hmem'
        · rcases List.mem_append.mp hmem' with hmem'' | hmem''
          · revert hmem''; decide
          · exact hp hmem''
        · revert hmem'; decide
      · rw [h]; decide
      · rw [h]; decide

/-- Witness for `memory_scenario_team_only` at the concrete team source
path `"team/memory.mdc"`. -/
theorem memory_scenario_team_only_witness :
    splitLines (GenerateClaudeMemoryContent (some
      { newMemoryConfig with
          teamContent := "# Standards\nUse conventions.", hasTeam := true,
          teamSourcePath := "team/memory.mdc" })) =
      ["# Standards -- Mindful (scope:team)", "<!-- Source: team/memory.mdc -->", "",
        "Use conventions."] := by
  have h := (memory_scenario_team_only "team/memory.mdc" (by decide)).1
  rw [h]
  decide

/-! ## Claim C2 -/

/-- The absolute target path of a generated file. -/
def targetOf (cfg : ApplyCfg) (f : ConfigFile) : String :=
  joinPath cfg.projectPath f.path

/-- A generated file whose content type occupies its whole target file:
everything except a claude `CLAUDE.md` memory file (whose owned slice is
the marked section only). -/
def wholeFileFor (cfg : ApplyCfg) (f : ConfigFile) : Prop :=
  cfg.toolName = "claude" → f.ftype = "memory" →
    goHasSfx (targetOf cfg f) "CLAUDE.md" = false

theorem upsert_lookup_self {α : Type} (m : List (String × α)) (k : String) (v : α)
    (h : assocLookup m k = some v) : upsert m k v = m := by
  induction m with
  | nil => simp [assocLookup] at h
  | cons kv rest ih =>
    by_cases hk : kv.1 = k
    · have hv : kv.2 = v := by
        simpa [assocLookup, List.find?, hk] using h
      simp only [upsert, if_pos hk]
      rw [← hk, ← hv]
    · simp only [upsert, if_neg hk]
      have h' : assocLookup rest k = some v := by
        simpa [assocLookup, List.find?, hk] using h
      rw [ih h']

theorem goHasSfx_join_claude (project : String) :
    goHasSfx (joinPath project "CLAUDE.md") "CLAUDE.md" = true := by
  by_cases hp : project = ""
  · simp only [joinPath, if_pos hp]
    decide
  · simp only [joinPath, if_neg hp]
    have : "CLAUDE.md".toList <:+ (project ++ "/" ++ "CLAUDE.md").toList := by
      refine ⟨(project ++ "/").toList, ?_⟩
      simp [toList_append]
    simpa [goHasSfx, List.isSuffixOf_iff_suffix] using this

theorem getActual_whole (cfg : ApplyCfg) (f : ConfigFile) (fs : FS)
    (hw : wholeFileFor cfg f) :
    getActualWriteContent fs f cfg.toolName = f.content := by
  by_cases ht : cfg.toolName = "claude"
  · simp only [getActualWriteContent, ht, if_pos rfl, getClaudeWriteContent]
    by_cases hm : f.ftype = "memory"
    · by_cases hp : f.path = "CLAUDE.md"
      · exfalso
        have hsfx := goHasSfx_join_claude cfg.projectPath
        have hfalse : goHasSfx (targetOf cfg f) "CLAUDE.md" = false := hw ht hm
        rw [targetOf, hp] at hfalse
        rw [hfalse] at hsfx
        cases hsfx
      · simp [hm, hp]
    · simp [hm]
  · simp [getActualWriteContent, ht]

theorem extract_whole (cfg : ApplyCfg) (f : ConfigFile) (fs : FS) (content : String)
    (hw : wholeFileFor cfg f) (hread : fsRead fs (targetOf cfg f) = some content) :
    extractExistingContent fs (targetOf cfg f) cfg.toolName f.ftype = content := by
  have hexists : fileExists fs (targetOf cfg f) = true := by simp [fileExists, hread]
  unfold extractExistingContent
  rw [if_neg (by simp [hexists])]
  rw [hread]
  simp only [Option.getD_some]
  by_cases ht : cfg.toolName = "claude"
  · rw [if_pos ht]
    unfold extractClaudeContent
    by_cases hm : f.ftype = "memory"
    · rw [if_pos hm, if_neg (by simp [hw ht hm])]
    · rw [if_neg hm]
  · rw [if_neg ht]

/-- The file system after a forced apply run: every file is written in
order. -/
def forceWriteFS (cfg : ApplyCfg) : List ConfigFile → FS → FS
  | [], fs => fs
  | f :: rest, fs =>
    forceWriteFS cfg rest
      (writeFile fs (targetOf cfg f) (getActualWriteContent fs f cfg.toolName))

/-- A forced, non-dry apply run writes every generated file, records no
conflict and no skip, and its file-system effect is the in-order write of
every file. -/
theorem applyLoop_force (cfg : ApplyCfg) (hf : cfg.force = true) (hd : cfg.dryRun = false) :
    ∀ (files : List ConfigFile) (i : Nat) (fs : FS) (res : ApplyResult),
      (applyLoop cfg files i fs res).1.filesWritten =
          res.filesWritten ++ files.map (·.path) ∧
      (applyLoop cfg files i fs res).1.conflicts = res.conflicts ∧
      (applyLoop cfg files i fs res).1.filesSkipped = res.filesSkipped ∧
      (applyLoop cfg files i fs res).2 = forceWriteFS cfg files fs := by
  intro files
  induction files with
  | nil => intro i fs res; simp [applyLoop, forceWriteFS]
  | cons f rest ih =>
    intro i fs res
    simp only [applyLoop, hd, Bool.false_eq_true, if_false, hf, Bool.not_true,
      Bool.and_false, forceWriteFS]
    have := ih (i + 1) (writeFile fs (joinPath cfg.projectPath f.path)
      (getActualWriteContent fs f cfg.toolName))
      (addWrittenFile (progressTick res i f.path) f.path)
    refine ⟨?_, ?_, ?_, ?_⟩
    · rw [this.1]; simp [addWrittenFile, progressTick]
    · rw [this.2.1]; simp [addWrittenFile, progressTick]
    · rw [this.2.2.1]; simp [addWrittenFile, progressTick]
    · rw [this.2.2.2]; rfl

theorem read_forceWriteFS_notin (cfg : ApplyCfg) (files : List ConfigFile) (fs : FS)
    (t : String) (h : t ∉ files.map (targetOf cfg)) :
    fsRead (forceWriteFS cfg files fs) t = fsRead fs t := by
  induction files generalizing fs with
  | nil => simp [forceWriteFS]
  | cons f rest ih =>
    have ht : t ≠ targetOf cfg f := by
      intro he; exact h (by simp [he])
    have hrest : t ∉ rest.map (targetOf cfg) := fun hm => h (by simp [hm])
    simp only [forceWriteFS]
    rw [ih _ hrest, fsRead_writeFile_ne _ _ _ _ ht]

/-- After a forced run over files with pairwise distinct targets, each
whole-file target holds exactly its generated content. -/
theorem read_forceWriteFS (cfg : ApplyCfg) (files : List ConfigFile) (fs : FS)
    (hnodup : (files.map (targetOf cfg)).Nodup)
    (hw : ∀ f ∈ files, wholeFileFor cfg f) :
    ∀ f ∈ files, fsRead (forceWriteFS cfg files fs) (targetOf cfg f) = some f.content := by
  induction files generalizing fs with
  | nil => intro f hf; cases hf
  | cons g rest ih =>
    intro f hf
    rcases List.mem_cons.mp hf with hfg | hfr
    · subst hfg
      have hnotin : targetOf cfg f ∉ rest.map (targetOf cfg) := by
        simpa using (List.nodup_cons.mp hnodup).1
      simp only [forceWriteFS]
      rw [read_forceWriteFS_notin _ _ _ _ hnotin]
      rw [getActual_whole _ _ _ (hw f (by simp))]
      exact fsRead_writeFile_self _ _ _
    · exact ih _ (List.nodup_cons.mp hnodup).2 (fun f' hf' => hw f' (by simp [hf'])) f hfr

/-- A second, unforced, non-dry run over whole-file targets that already
hold their generated content: every file is re-extracted equal, no conflict
and no skip is recorded, every file is *written again*, and the file system
does not change. -/
theorem applyLoop_second_run (cfg : ApplyCfg) (hf : cfg.force = false)
    (hd : cfg.dryRun = false) :
    ∀ (files : List ConfigFile) (i : Nat) (fs : FS) (res : ApplyResult),
      (∀ f ∈ files, wholeFileFor cfg f ∧ fsRead fs (targetOf cfg f) = some f.content) →
      (applyLoop cfg files i fs res).1.filesWritten =
          res.filesWritten ++ files.map (·.path) ∧
      (applyLoop cfg files i fs res).1.conflicts = res.conflicts ∧
      (applyLoop cfg files i fs res).1.filesSkipped = res.filesSkipped ∧
      (applyLoop cfg files i fs res).2 = fs := by
  intro files
  induction files with
  | nil => intro i fs res _; simp [applyLoop]
  | cons f rest ih =>
    intro i fs res h
    have hwf := (h f (by simp)).1
    have hface : fsRead fs (joinPath cfg.projectPath f.path) = some f.content :=
      (h f (by simp)).2
    have hexists : fileExists fs (joinPath cfg.projectPath f.path) = true := by
      simp [fileExists, hface]
    have hextract : extractExistingContent fs (joinPath cfg.projectPath f.path)
        cfg.toolName f.ftype = f.content :=
      extract_whole cfg f fs f.content hwf ((h f (by simp)).2)
    have hget : getActualWriteContent fs f cfg.toolName = f.content :=
      getActual_whole cfg f fs hwf
    have hwrite : writeFile fs (joinPath cfg.projectPath f.path) f.content = fs :=
      upsert_lookup_self fs (joinPath cfg.projectPath f.path) f.content hface
    simp only [applyLoop, hd, Bool.false_eq_true, if_false, hf, Bool.not_false,
      Bool.and_true, hexists]
    simp only [if_true]
    rw [hextract]
    rw [if_neg (by exact fun hne => hne rfl)]
    rw [hget, hwrite]
    have := ih (i + 1) fs (addWrittenFile (progressTick res i f.path) f.path)
      (fun f' hf' => h f' (by simp [hf']))
    refine ⟨?_, ?_, ?_, this.2.2.2⟩
    · rw [this.1]; simp [addWrittenFile, progressTick]
    · rw [this.2.1]; simp [addWrittenFile, progressTick]
    · rw [this.2.2.1]; simp [addWrittenFile, progressTick]

/-- Claim C2 is false on the code at a concrete input, on both counts it
could fail: (a) re-applying an unchanged one-subagent model writes the file
again — the second run's written-files list is `["sub.md"]`, not empty —
and (b) for a claude memory model whose content ends in a newline, the
second run detects a conflict (the merged `CLAUDE.md` stores the trimmed
section, which the extractor returns without the trailing newline). -/
theorem apply_idempotence_counterexample :
    (let cfg : ApplyCfg :=
      { projectPath := "p", toolName := "claude", dryRun := false, force := false }
     let files := [{ path := "sub.md", content := "abc", ftype := "subagent" }]
     let fs1 := (applyConfigRun cfg files []).2
     (applyConfigRun cfg files fs1).1.conflicts = [] ∧
       (applyConfigRun cfg files fs1).1.filesWritten = ["sub.md"]) ∧
    (let cfg : ApplyCfg :=
      { projectPath := "p", toolName := "claude", dryRun := false, force := false }
     let files := [{ path := "CLAUDE.md", content := "hello\n", ftype := "memory" }]
     let fs1 := (applyConfigRun cfg files []).2
     (applyConfigRun cfg files fs1).1.conflicts ≠ []) := by
  constructor
  · constructor
    · decide
    · decide
  · decide

/-- Claim C2 (amended): re-applying an unchanged model is idempotent on
the *disk* but not on the write log.  For every run whose generated files
have pairwise distinct targets and are all whole-file content (no shared
claude `CLAUDE.md` section file), after a first run that wrote everything
(forced), the second (unforced) run detects zero conflicts and skips
nothing — but it writes every file again with identical content, so its
written-files list is the full file list rather than empty, and the file
system is unchanged. -/
theorem apply_second_run_no_conflicts_rewrites (tool project : String)
    (files : List ConfigFile) (fs : FS)
    (hnodup : (files.map (targetOf
      { projectPath := project, toolName := tool, dryRun := false, force := true })).Nodup)
    (hw : ∀ f ∈ files, wholeFileFor
      { projectPath := project, toolName := tool, dryRun := false, force := true } f) :
    let cfg1 : ApplyCfg :=
      { projectPath := project, toolName := tool, dryRun := false, force := true }
    let cfg2 : ApplyCfg :=
      { projectPath := project, toolName := tool, dryRun := false, force := false }
    let r1 := applyConfigRun cfg1 files fs
    let r2 := applyConfigRun cfg2 files r1.2
    r2.1.conflicts = [] ∧ r2.1.filesSkipped = [] ∧
      r2.1.filesWritten = files.map (·.path) ∧ r2.2 = r1.2 := by
  intro cfg1 cfg2 r1 r2
  have hr1fs : r1.2 = forceWriteFS cfg1 files fs :=
    (applyLoop_force cfg1 rfl rfl files 0 fs _).2.2.2
  have hread : ∀ f ∈ files, fsRead r1.2 (targetOf cfg2 f) = some f.content := by
    intro f hf
    rw [hr1fs]
    exact read_forceWriteFS cfg1 files fs hnodup hw f hf
  have hsecond := applyLoop_second_run cfg2 rfl rfl files 0 r1.2
    { newApplyResult with progress := some (newApplyProgress files.length) }
    (fun f hf => ⟨hw f hf, hread f hf⟩)
  have hconf : (applyLoop cfg2 files 0 r1.2
      { newApplyResult with progress := some (newApplyProgress files.length) }).1.conflicts
      = [] := by
    rw [hsecond.2.1]
    rfl
  simp only [newApplyResult] at hsecond hconf
  refine ⟨?_, ?_, ?_, ?_⟩
  · show (applyConfigRun cfg2 files r1.2).1.conflicts = []
    simp only [applyConfigRun, newApplyResult]
    rw [if_neg (by rw [hconf]; simp)]
    simp [setSuccess, hconf]
  · show (applyConfigRun cfg2 files r1.2).1.filesSkipped = []
    simp only [applyConfigRun, newApplyResult]
    rw [if_neg (by rw [hconf]; simp)]
    simp [setSuccess, hsecond.2.2.1, newApplyResult]
  · show (applyConfigRun cfg2 files r1.2).1.filesWritten = files.map (·.path)
    simp only [applyConfigRun, newApplyResult]
    rw [if_neg (by rw [hconf]; simp)]
    simp [setSuccess, hsecond.1, newApplyResult]
  · show (applyConfigRun cfg2 files r1.2).2 = r1.2
    simp only [applyConfigRun, newApplyResult]
    exact hsecond.2.2.2

/-- Witness for `apply_second_run_no_conflicts_rewrites` on a concrete
two-file cursor run. -/
theorem apply_second_run_witness :
    (applyConfigRun
      { projectPath := "p", toolName := "cursor", dryRun := false, force := false }
      [{ path := "a.mdc", content := "A", ftype := "memory" },
       { path := "b.mdc", content := "B", ftype := "subagent" }]
      (applyConfigRun
        { projectPath := "p", toolName := "cursor", dryRun := false, force := true }
        [{ path := "a.mdc", content := "A", ftype := "memory" },
         { path := "b.mdc", content := "B", ftype := "subagent" }] []).2).1.filesWritten =
      ["a.mdc", "b.mdc"] :=
  (apply_second_run_no_conflicts_rewrites "cursor" "p"
    [{ path := "a.mdc", content := "A", ftype := "memory" },
     { path := "b.mdc", content := "B", ftype := "subagent" }] []
    (by decide)
    (by
      intro f hf ht hm
      exact absurd ht (by decide))).2.2.1

/-! ## Claims C1 and C6 -/

/-- Under `Force`, a real (non-dry) `Manager.ApplyConfig` run reports every
generated file as written, in order, with no conflicts and no skips. -/
theorem applyConfigRun_force (cfg : ApplyCfg) (hf : cfg.force = true)
    (hd : cfg.dryRun = false) (files : List ConfigFile) (fs : FS) :
    (applyConfigRun cfg files fs).1.filesWritten = files.map (·.path) ∧
    (applyConfigRun cfg files fs).1.conflicts = [] ∧
    (applyConfigRun cfg files fs).1.filesSkipped = [] ∧
    (applyConfigRun cfg files fs).2 = forceWriteFS cfg files fs := by
  have h := applyLoop_force cfg hf hd files 0 fs
    { newApplyResult with progress := some (newApplyProgress files.length) }
  have hconf : (applyLoop cfg files 0 fs
      { newApplyResult with progress := some (newApplyProgress files.length) }).1.conflicts
      = [] := by rw [h.2.1]; rfl
  simp only [newApplyResult] at h hconf
  refine ⟨?_, ?_, ?_, ?_⟩
  · simp only [applyConfigRun, newApplyResult]
    rw [if_neg (by rw [hconf]; simp)]
    simp only [setSuccess]
    rw [h.1]
    rfl
  · simp only [applyConfigRun, newApplyResult]
    rw [if_neg (by rw [hconf]; simp)]
    simpa [setSuccess] using hconf
  · simp only [applyConfigRun, newApplyResult]
    rw [if_neg (by rw [hconf]; simp)]
    simp only [setSuccess]
    rw [h.2.2.1]
  · simp only [applyConfigRun, newApplyResult]
    exact h.2.2.2

/-- Claim C1 is false on the code at a concrete input.  One invocation
processes `cursor` then `claude`; `cursor` generates an ordered pair of
files — first a brand-new unconflicted one, then a conflicting one — and
the scripted prompt answers `Stop`.  Were the claim true, the earlier
unconflicted file would be on disk and the remaining tool aborted.  In
fact the prompt fires before any file of the tool is written, `Stop` skips
the *whole* tool (the unconflicted file included), and the next tool is
still processed and written. -/
theorem stop_partial_commit_counterexample :
    (let gen := fun t => if t = "cursor" then
        [{ path := "new.mdc", content := "N", ftype := "subagent" },
         { path := "mem.mdc", content := "M", ftype := "memory" }]
      else [({ path := "c.md", content := "C", ftype := "subagent" } : ConfigFile)]
     let out := runApplyTools gen (fun _ _ => ConflictResolution.Stop) "p" false
        ["cursor", "claude"] false [("p/mem.mdc", "OLD")]
     fsRead out.1 "p/new.mdc" = none ∧
       fsRead out.1 "p/c.md" = some "C" ∧
       out.2.map (·.result.isSome) = [false, true]) := by
  decide

/-- Claim C1 (amended): the prompt fires once per tool, before any file of
that tool is written.  When it answers `Stop` for a tool with conflicts on
a real run, *no* file of that tool is written — the file system passes
through unchanged and no apply result exists for the tool — and the
remaining tools of the invocation are still processed normally from the
same state, rather than aborted. -/
theorem stop_skips_whole_tool_continues_run
    (gen : String → List ConfigFile)
    (prompt : List FileConflict → String → ConflictResolution)
    (projectPath tool : String) (rest : List String) (fs : FS)
    (hconf : detectConflictsRun
      { projectPath := projectPath, toolName := tool, dryRun := false, force := false }
      (gen tool) fs ≠ [])
    (hprompt : prompt (detectConflictsRun
      { projectPath := projectPath, toolName := tool, dryRun := false, force := false }
      (gen tool) fs) tool = .Stop) :
    runApplyTools gen prompt projectPath false (tool :: rest) false fs =
      ((runApplyTools gen prompt projectPath false rest false fs).1,
        { tool := tool, prompted := true, resolution := some .Stop, result := none } ::
          (runApplyTools gen prompt projectPath false rest false fs).2) := by
  have hrt : runTool gen prompt projectPath false false fs tool =
      (false, fs,
        { tool := tool, prompted := true, resolution := some .Stop, result := none }) := by
    simp only [runTool, Bool.not_false, if_true]
    rw [if_pos (by simp [hconf]), hprompt]
  simp only [runApplyTools, hrt]

/-- Witness for `stop_skips_whole_tool_continues_run` at the
counterexample's input. -/
theorem stop_skips_whole_tool_witness :
    runApplyTools
      (fun t => if t = "cursor" then
        [{ path := "new.mdc", content := "N", ftype := "subagent" },
         { path := "mem.mdc", content := "M", ftype := "memory" }]
      else [({ path := "c.md", content := "C", ftype := "subagent" } : ConfigFile)])
      (fun _ _ => ConflictResolution.Stop) "p" false ["cursor"] false
      [("p/mem.mdc", "OLD")] =
      ([("p/mem.mdc", "OLD")],
        [{ tool := "cursor", prompted := true, resolution := some .Stop, result := none }]) := by
  rw [stop_skips_whole_tool_continues_run _ _ _ _ _ _ (by decide) (by decide)]
  decide

/-- Once the CLI force flag is set, every later tool is applied without
conflict detection or prompting, and every one of its generated files is
written. -/
theorem runApplyTools_forced (gen : String → List ConfigFile)
    (prompt : List FileConflict → String → ConflictResolution)
    (projectPath : String) (ts : List String) (fs : FS) :
    ∀ tr ∈ (runApplyTools gen prompt projectPath false ts true fs).2,
      tr.prompted = false ∧
      tr.result.map (·.filesWritten) = some ((gen tr.tool).map (·.path)) := by
  induction ts generalizing fs with
  | nil => intro tr htr; cases htr
  | cons t ts ih =>
    intro tr htr
    have hrt : runTool gen prompt projectPath false true fs t =
        (true, (applyConfigRun
          { projectPath := projectPath, toolName := t, dryRun := false, force := true }
          (gen t) fs).2,
          { tool := t, prompted := false, resolution := none,
            result := some (applyConfigRun
              { projectPath := projectPath, toolName := t, dryRun := false, force := true }
              (gen t) fs).1 }) := by
      simp [runTool]
    simp only [runApplyTools, hrt] at htr
    rcases List.mem_cons.mp htr with h | h
    · subst h
      exact ⟨rfl, congrArg some (applyConfigRun_force
        { projectPath := projectPath, toolName := t, dryRun := false, force := true }
        rfl rfl (gen t) fs).1⟩
    · exact ih _ tr h

/-- Claim C6: on a real run, once the per-tool prompt answers
`ContinueAll` for some tool's conflicts, that tool's apply is forced —
every generated file of the tool, the conflicting ones included, is
written — and no prompt occurs for any subsequently processed tool of the
invocation: each later tool is applied with the force flag set and all its
files are written as well. -/
theorem continueAll_no_more_prompts
    (gen : String → List ConfigFile)
    (prompt : List FileConflict → String → ConflictResolution)
    (projectPath tool : String) (rest : List String) (fs : FS)
    (hconf : detectConflictsRun
      { projectPath := projectPath, toolName := tool, dryRun := false, force := false }
      (gen tool) fs ≠ [])
    (hprompt : prompt (detectConflictsRun
      { projectPath := projectPath, toolName := tool, dryRun := false, force := false }
      (gen tool) fs) tool = .ContinueAll) :
    let out := runApplyTools gen prompt projectPath false (tool :: rest) false fs
    (out.2.headI.resolution = some .ContinueAll ∧
      out.2.headI.result.map (·.filesWritten) = some ((gen tool).map (·.path))) ∧
    ∀ tr ∈ out.2.tail,
      tr.prompted = false ∧
      tr.result.map (·.filesWritten) = some ((gen tr.tool).map (·.path)) := by
  intro out
  have hrt : runTool gen prompt projectPath false false fs tool =
      (true, (applyConfigRun
        { projectPath := projectPath, toolName := tool, dryRun := false, force := true }
        (gen tool) fs).2,
        { tool := tool, prompted := true, resolution := some .ContinueAll,
          result := some (applyConfigRun
            { projectPath := projectPath, toolName := tool, dryRun := false, force := true }
            (gen tool) fs).1 }) := by
    simp only [runTool, Bool.not_false, if_true]
    rw [if_pos (by simp [hconf]), hprompt]
  have hout : out =
      ((runApplyTools gen prompt projectPath false rest true
        (applyConfigRun
          { projectPath := projectPath, toolName := tool, dryRun := false, force := true }
          (gen tool) fs).2).1,
       { tool := tool, prompted := true, resolution := some .ContinueAll,
         result := some (applyConfigRun
           { projectPath := projectPath, toolName := tool, dryRun := false, force := true }
           (gen tool) fs).1 } ::
       (runApplyTools gen prompt projectPath false rest true
        (applyConfigRun
          { projectPath := projectPath, toolName := tool, dryRun := false, force := true }
          (gen tool) fs).2).2) := by
    show runApplyTools gen prompt projectPath false (tool :: rest) false fs = _
    simp only [runApplyTools, hrt]
  rw [hout]
  refine ⟨⟨rfl, congrArg some (applyConfigRun_force
      { projectPath := projectPath, toolName := tool, dryRun := false, force := true }
      rfl rfl (gen tool) fs).1⟩, ?_⟩
  exact runApplyTools_forced gen prompt projectPath rest _

/-- Witness for `continueAll_no_more_prompts`: a two-tool run whose
scripted prompt answers `ContinueAll` at the first conflict. -/
theorem continueAll_no_more_prompts_witness :
    (runApplyTools
      (fun t => if t = "cursor" then
        [({ path := "mem.mdc", content := "M", ftype := "memory" } : ConfigFile)]
      else [({ path := "c.md", content := "C", ftype := "subagent" } : ConfigFile)])
      (fun _ _ => ConflictResolution.ContinueAll) "p" false ["cursor", "claude"] false
      [("p/mem.mdc", "OLD"), ("p/c.md", "OTHER")]).2.map
        (fun tr => (tr.prompted, tr.result.map (·.filesWritten))) =
      [(true, some ["mem.mdc"]), (false, some ["c.md"])] := by
  have h := continueAll_no_more_prompts
    (fun t => if t = "cursor" then
        [({ path := "mem.mdc", content := "M", ftype := "memory" } : ConfigFile)]
      else [({ path := "c.md", content := "C", ftype := "subagent" } : ConfigFile)])
    (fun _ _ => ConflictResolution.ContinueAll) "p" "cursor" ["claude"]
    [("p/mem.mdc", "OLD"), ("p/c.md", "OTHER")] (by decide) (by decide)
  decide

/-! ## Claim C5 -/

theorem mem_upsert_of_ne {α : Type} (m : List (String × α)) (k k' : String) (v v' : α)
    (h : (k, v) ∈ m) (hk : k ≠ k') : (k, v) ∈ upsert m k' v' := by
  induction m with
  | nil => cases h
  | cons kv rest ih =>
    rcases List.mem_cons.mp h with he | hr
    · simp only [upsert]
      by_cases hc : kv.1 = k'
      · rw [← he] at hc
        exact absurd hc hk
      · rw [if_neg hc]
        rw [← he]
        exact List.mem_cons_self _ _
    · simp only [upsert]
      by_cases hc : kv.1 = k'
      · rw [if_pos hc]
        exact List.mem_cons_of_mem _ hr
      · rw [if_neg hc]
        exact List.mem_cons_of_mem _ (ih hr)

theorem mem_assocRemove_of_ne {α : Type} (m : List (String × α)) (k k' : String) (v : α)
    (h : (k, v) ∈ m) (hk : k ≠ k') : (k, v) ∈ assocRemove m k' := by
  induction m with
  | nil => cases h
  | cons kv rest ih =>
    rcases List.mem_cons.mp h with he | hr
    · simp only [assocRemove]
      by_cases hc : kv.1 = k'
      · rw [← he] at hc
        exact absurd hc hk
      · rw [if_neg hc]
        rw [← he]
        exact List.mem_cons_self _ _
    · simp only [assocRemove]
      by_cases hc : kv.1 = k'
      · rw [if_pos hc]
        exact ih hr
      · rw [if_neg hc]
        exact List.mem_cons_of_mem _ (ih hr)

/-- Claim C5 is false on the code at a concrete input: the existing shared
file `"# Other\n\nbody"` holds one foreign section whose text (the blank
line after the heading included) is `"# Other\n\nbody"`; after the upsert
of the owned section the output is `"# WEXLER\nX\n\n# Other\nbody"`, in
which that original byte sequence no longer occurs — the merge re-emits the
foreign section with its body trimmed, not byte-for-byte. -/
theorem section_upsert_byte_preservation_counterexample :
    ¬ (("# Other\n\nbody").toList <:+:
        (generateClaudeMemoryContent [("CLAUDE.md", "# Other\n\nbody")] "X").toList) := by
  decide

/-- Claim C5 (amended): a section upsert of the owned block keeps every
foreign top-level section *up to whitespace normalisation*: each foreign
section of the existing file whose body is not pure whitespace reappears
in the rebuilt file as the block `"# " ++ name ++ "\n" ++ trimmedBody`.
(Byte-for-byte preservation fails — bodies are trimmed and whitespace-only
sections are dropped — and the relative order of foreign sections is the
unspecified Go map iteration order, so only membership is guaranteed.) -/
theorem section_upsert_keeps_foreign_sections (fs : FS) (wexlerContent : String)
    (name body : String)
    (hmem : (name, body) ∈ parseSections ((fsRead fs "CLAUDE.md").getD ""))
    (hname : name ≠ "WEXLER") (hname' : name ≠ "")
    (hbody : goTrimSpace body ≠ "") :
    ("# " ++ name ++ "\n" ++ goTrimSpace body) ∈ claudeMemoryParts fs wexlerContent := by
  simp only [claudeMemoryParts]
  have hup : (name, body) ∈ upsert (parseSections ((fsRead fs "CLAUDE.md").getD ""))
      "WEXLER" wexlerContent :=
    mem_upsert_of_ne _ _ _ _ _ hmem hname
  have hlook : assocLookup (upsert (parseSections ((fsRead fs "CLAUDE.md").getD ""))
      "WEXLER" wexlerContent) "WEXLER" = some wexlerContent :=
    assocLookup_upsert_self _ _ _
  simp only [hlook]
  by_cases hw : goTrimSpace wexlerContent ≠ ""
  · rw [if_pos hw]
    refine List.mem_append_right _ ?_
    refine List.mem_map.mpr ⟨(name, body), ?_, rfl⟩
    refine List.mem_filter.mpr ⟨?_, ?_⟩
    · exact mem_assocRemove_of_ne _ _ _ _ hup hname
    · simp [hname', hbody]
  · rw [if_neg hw]
    refine List.mem_append_right _ ?_
    refine List.mem_map.mpr ⟨(name, body), ?_, rfl⟩
    exact List.mem_filter.mpr ⟨hup, by simp [hname', hbody]⟩

/-- Witness for `section_upsert_keeps_foreign_sections` at the
counterexample's input. -/
theorem section_upsert_keeps_foreign_sections_witness :
    ("# Other" ++ "\n" ++ goTrimSpace "\nbody") ∈
      claudeMemoryParts [("CLAUDE.md", "# Other\n\nbody")] "X" := by
  have h := section_upsert_keeps_foreign_sections [("CLAUDE.md", "# Other\n\nbody")] "X"
    "Other" "\nbody" (by decide) (by decide) (by decide) (by decide)
  simpa using h

/-! ## Claim C10 -/

/-- The subagent name a file contributes: base name without `.mdc`. -/
def subagentBase (p : String) : String := goTrimSfx (goBase p) ".mdc"

theorem keys_upsert_subset {α : Type} (m : List (String × α)) (k x : String) (v : α)
    (h : x ∈ (upsert m k v).map (·.1)) : x ∈ m.map (·.1) ∨ x = k := by
  induction m with
  | nil => simpa [upsert] using h
  | cons kv rest ih =>
    simp only [upsert] at h
    by_cases hc : kv.1 = k
    · rw [if_pos hc] at h
      simp only [List.map_cons, List.mem_cons] at h
      rcases h with he | hr
      · exact Or.inr he
      · exact Or.inl (by simp only [List.map_cons, List.mem_cons]; exact Or.inr hr)
    · rw [if_neg hc] at h
      simp only [List.map_cons, List.mem_cons] at h
      rcases h with he | hr
      · exact Or.inl (by simp only [List.map_cons, List.mem_cons]; exact Or.inl he)
      · rcases ih (by simpa using hr) with h1 | h1
        · exact Or.inl (by simp only [List.map_cons, List.mem_cons]; exact Or.inr h1)
        · exact Or.inr h1

theorem upsert_keys_nodup {α : Type} (m : List (String × α)) (k : String) (v : α)
    (h : (m.map (·.1)).Nodup) : ((upsert m k v).map (·.1)).Nodup := by
  induction m with
  | nil => simp [upsert]
  | cons kv rest ih =>
    simp only [upsert]
    simp only [List.map_cons] at h
    rcases List.nodup_cons.mp h with ⟨hni, hnd⟩
    by_cases hc : kv.1 = k
    · rw [if_pos hc]
      simp only [List.map_cons]
      exact List.nodup_cons.mpr ⟨by rw [← hc]; exact hni, hnd⟩
    · rw [if_neg hc]
      simp only [List.map_cons]
      refine List.nodup_cons.mpr ⟨?_, ih hnd⟩
      intro hmem
      rcases keys_upsert_subset rest k kv.1 v hmem with h1 | h1
      · exact hni h1
      · exact hc h1

theorem foldl_upsert_keys_nodup (files : List (String × String))
    (acc : List (String × SubagentConfig)) (h : (acc.map (·.1)).Nodup) :
    ((files.foldl (fun acc kv =>
      upsert acc (subagentBase kv.1)
        { name := subagentBase kv.1, content := kv.2 }) acc).map (·.1)).Nodup := by
  induction files generalizing acc with
  | nil => simpa using h
  | cons kv rest ih =>
    simp only [List.foldl_cons]
    exact ih _ (upsert_keys_nodup _ _ _ h)

theorem assocLookup_foldl_upsert_none (files : List (String × String))
    (acc : List (String × SubagentConfig)) (name : String)
    (h : ∀ kv ∈ files, subagentBase kv.1 ≠ name) :
    assocLookup (files.foldl (fun acc kv =>
      upsert acc (subagentBase kv.1)
        { name := subagentBase kv.1, content := kv.2 }) acc) name =
    assocLookup acc name := by
  induction files generalizing acc with
  | nil => rfl
  | cons kv rest ih =>
    simp only [List.foldl_cons]
    rw [ih _ (fun kv' h' => h kv' (by simp [h']))]
    exact assocLookup_upsert_ne _ _ _ _ (fun he => h kv (by simp) he.symm)

theorem assocLookup_foldl_upsert_single (files : List (String × String))
    (acc : List (String × SubagentConfig)) (name ppath pcontent : String)
    (h : files.filter (fun kv => subagentBase kv.1 = name) = [(ppath, pcontent)]) :
    assocLookup (files.foldl (fun acc kv =>
      upsert acc (subagentBase kv.1)
        { name := subagentBase kv.1, content := kv.2 }) acc) name =
    some { name := name, content := pcontent } := by
  induction files generalizing acc with
  | nil => simp at h
  | cons kv rest ih =>
    by_cases hc : subagentBase kv.1 = name
    · have hfil : kv :: rest.filter (fun kv => subagentBase kv.1 = name) =
          [(ppath, pcontent)] := by
        simpa [List.filter_cons, hc] using h
      have hkv : kv = (ppath, pcontent) := (List.cons_eq_cons.mp hfil).1
      have hrest : rest.filter (fun kv => subagentBase kv.1 = name) = [] :=
        (List.cons_eq_cons.mp hfil).2
      have hnone : ∀ kv' ∈ rest, subagentBase kv'.1 ≠ name := by
        intro kv' hkv' he
        have hmem : kv' ∈ rest.filter (fun kv => subagentBase kv.1 = name) :=
          List.mem_filter.mpr ⟨hkv', by simp [he]⟩
        rw [hrest] at hmem
        cases hmem
      simp only [List.foldl_cons]
      rw [assocLookup_foldl_upsert_none rest _ name hnone]
      rw [hc, assocLookup_upsert_self]
      have h2 : kv.2 = pcontent := by rw [hkv]
      rw [h2]
    · have hfil : rest.filter (fun kv => subagentBase kv.1 = name) = [(ppath, pcontent)] := by
        simpa [List.filter_cons, hc] using h
      simp only [List.foldl_cons]
      exact ih _ hfil

theorem filter_eq_nil_of_key_not_mem {α : Type} (m : List (String × α)) (k : String)
    (h : k ∉ m.map (·.1)) : m.filter (fun kv => kv.1 = k) = [] := by
  induction m with
  | nil => rfl
  | cons kv rest ih =>
    have hk : kv.1 ≠ k := fun he => h (by simp [he])
    simp only [List.filter_cons, hk]
    rw [if_neg (by simpa using hk)]
    exact ih (fun hm => h (by simp at hm ⊢; exact Or.inr hm))

theorem filter_single_of_nodup_lookup {α : Type} (m : List (String × α)) (k : String) (v : α)
    (hnd : (m.map (·.1)).Nodup) (hl : assocLookup m k = some v) :
    m.filter (fun kv => kv.1 = k) = [(k, v)] := by
  induction m with
  | nil => simp [assocLookup] at hl
  | cons kv rest ih =>
    simp only [List.map_cons] at hnd
    rcases List.nodup_cons.mp hnd with ⟨hni, hnd'⟩
    by_cases hc : kv.1 = k
    · have hv : kv.2 = v := by
        simpa [assocLookup, List.find?, hc] using hl
      have hrest : rest.filter (fun kv => kv.1 = k) = [] :=
        filter_eq_nil_of_key_not_mem rest k (by rw [← hc]; exact hni)
      simp only [List.filter_cons]
      rw [if_pos (by simpa using hc), hrest]
      have : kv = (k, v) := Prod.ext hc hv
      rw [this]
    · have hl' : assocLookup rest k = some v := by
        simpa [assocLookup, List.find?, hc] using hl
      simp only [List.filter_cons]
      rw [if_neg (by simpa using hc)]
      exact ih hnd' hl'

/-- Claim C10: when both the team scope and the project scope provide a
subagent file with the same base name (and the project scope has exactly
one such file), the loaded dual-scope source holds exactly one subagent
under that name and its content is the project-scope file's content: the
project scope, loaded second, silently replaces the team scope entry. -/
theorem dual_scope_project_overrides (fs : FS) (team proj : String)
    (cfg : SourceConfig) (name tpath tcontent ppath pcontent : String)
    (hteam : team ≠ "") (hproj : proj ≠ "")
    (hload : LoadDualScopeSource fs team proj = .ok cfg)
    (htmem : (tpath, tcontent) ∈ walkMdcFiles fs (joinPath team "subagents"))
    (htbase : subagentBase tpath = name)
    (hpfilter : (walkMdcFiles fs (joinPath proj "mindful/subagents")).filter
        (fun kv => subagentBase kv.1 = name) = [(ppath, pcontent)]) :
    assocLookup cfg.subagents name = some { name := name, content := pcontent } ∧
    (cfg.subagents.filter (fun kv => kv.1 = name)).length = 1 := by
  rcases hlt : loadTeamMemory fs team newMemoryConfig with e | m1
  · unfold LoadDualScopeSource at hload
    rw [hlt] at hload
    cases hload
  rcases hlp : loadProjectMemory fs proj m1 with e | m2
  · unfold LoadDualScopeSource at hload
    rw [hlt] at hload
    simp only [] at hload
    rw [hlp] at hload
    cases hload
  have hsubs : cfg.subagents =
      loadSubagentsFromDir fs (joinPath proj "mindful/subagents")
        (loadSubagentsFromDir fs (joinPath team "subagents") []) := by
    unfold LoadDualScopeSource at hload
    rw [hlt] at hload
    simp only [] at hload
    rw [hlp] at hload
    rw [if_pos hteam, if_pos hproj] at hload
    cases hload
    rfl
  have hlook : assocLookup cfg.subagents name = some { name := name, content := pcontent } := by
    rw [hsubs]
    exact assocLookup_foldl_upsert_single _ _ _ _ _ hpfilter
  refine ⟨hlook, ?_⟩
  have hnd : (cfg.subagents.map (·.1)).Nodup := by
    rw [hsubs]
    exact foldl_upsert_keys_nodup _ _ (foldl_upsert_keys_nodup _ [] (by simp))
  rw [filter_single_of_nodup_lookup _ _ _ hnd hlook]
  rfl

/-- Witness for `dual_scope_project_overrides` on a concrete dual-scope
file system. -/
theorem dual_scope_project_overrides_witness :
    assocLookup
      ({ memory := none,
         subagents := [("planner", { name := "planner", content := "proj planner" })] }
        : SourceConfig).subagents "planner" =
      some { name := "planner", content := "proj planner" } :=
  (dual_scope_project_overrides
    [("team/subagents/planner.mdc", "team planner"),
     ("proj/mindful/subagents/planner.mdc", "proj planner")]
    "team" "proj"
    { memory := none,
      subagents := [("planner", { name := "planner", content := "proj planner" })] }
    "planner" "team/subagents/planner.mdc" "team planner"
    "proj/mindful/subagents/planner.mdc" "proj planner"
    (by decide) (by decide) (by rfl) (by decide) (by decide) (by decide)).1

/-! ## Claim C4 -/

/-- The per-entry step of the `mergeMCPFiles` server loop. -/
def mergeStep (acc : List (String × Json) × Bool) (kv : String × Json) :
    List (String × Json) × Bool :=
  match assocLookup acc.1 kv.1 with
  | some ex => if marshal ex ≠ marshal kv.2 then (acc.1, true) else acc
  | none => (upsert acc.1 kv.1 kv.2, acc.2)

theorem mergeServers_eq_foldl (existingServers newServers : List (String × Json)) :
    mergeServers existingServers newServers =
      newServers.foldl mergeStep (dedupKeys existingServers, false) := by
  rfl

theorem mergeFold_flag_monotone (newServers : List (String × Json))
    (acc : List (String × Json)) :
    (newServers.foldl mergeStep (acc, true)).2 = true := by
  induction newServers generalizing acc with
  | nil => rfl
  | cons kv rest ih =>
    rcases h : assocLookup acc kv.1 with _ | ex
    · simp only [List.foldl_cons, mergeStep, h]
      exact ih _
    · simp only [List.foldl_cons, mergeStep, h]
      by_cases hm : marshal ex ≠ marshal kv.2
      · rw [if_pos hm]; exact ih _
      · rw [if_neg hm]; exact ih _

/-- The conflict flag only arises from a server name present on both sides
with differing `json.Marshal` images (for duplicate-free generated maps,
as Go maps are). -/
theorem mergeFold_conflict_only_if (newServers : List (String × Json))
    (acc : List (String × Json))
    (hnd : (newServers.map (·.1)).Nodup)
    (h : (newServers.foldl mergeStep (acc, false)).2 = true) :
    ∃ n x y, assocLookup acc n = some x ∧ (n, y) ∈ newServers ∧ marshal x ≠ marshal y := by
  induction newServers generalizing acc with
  | nil => cases h
  | cons kv rest ih =>
    simp only [List.map_cons] at hnd
    rcases List.nodup_cons.mp hnd with ⟨hni, hnd'⟩
    rcases hl : assocLookup acc kv.1 with _ | ex
    · simp only [List.foldl_cons, mergeStep, hl] at h
      rcases ih (upsert acc kv.1 kv.2) hnd' h with ⟨n, x, y, h1, h2, h3⟩
      have hn : n ≠ kv.1 := by
        intro he
        exact hni (he ▸ List.mem_map.mpr ⟨(n, y), h2, rfl⟩)
      exact ⟨n, x, y, by rw [← assocLookup_upsert_ne acc kv.1 n kv.2 hn]; exact h1,
        List.mem_cons_of_mem _ h2, h3⟩
    · simp only [List.foldl_cons, mergeStep, hl] at h
      by_cases hm : marshal ex ≠ marshal kv.2
      · exact ⟨kv.1, ex, kv.2, hl, by simp, hm⟩
      · rw [if_neg hm] at h
        rcases ih acc hnd' h with ⟨n, x, y, h1, h2, h3⟩
        exact ⟨n, x, y, h1, List.mem_cons_of_mem _ h2, h3⟩

/-- Claim C4: the MCP merge works per server name, not per file.  With the
existing map `{a ↦ X, b ↦ Y}` and the generated map `{a ↦ X', c ↦ Z}`
where `X'` marshals identically to `X` and the three names are distinct,
`mergeMCPFiles` reports no conflict — neither for the unchanged `a` nor
for the new `c` — and the merged file holds exactly the servers `a`, `b`
and `c` (keeping the existing `X`).  Moreover the conflict flag can arise
only from a server name present on both sides whose two JSON-serialized
values differ. -/
theorem mcp_merge_per_server (existing newFile : ConfigFile) (exJ newJ : Json)
    (a b c : String) (X X' Y Z : Json)
    (hex : goUnmarshal existing.content = some exJ) (hexo : isObj exJ = true)
    (hnew : goUnmarshal newFile.content = some newJ) (hnewo : isObj newJ = true)
    (hservE : mcpServersOf exJ = [(a, X), (b, Y)])
    (hservN : mcpServersOf newJ = [(a, X'), (c, Z)])
    (hXX : marshal X' = marshal X)
    (hab : a ≠ b) (hac : a ≠ c) (hbc : b ≠ c) :
    mergeMCPFiles existing newFile =
      .ok ({ path := newFile.path,
             content := marshal (.obj [("mcpServers", .obj [(a, X), (b, Y), (c, Z)])]),
             ftype := newFile.ftype }, false) ∧
    (∀ exS newS : List (String × Json), (newS.map (·.1)).Nodup →
      (mergeServers exS newS).2 = true →
      ∃ n x y, assocLookup (dedupKeys exS) n = some x ∧ (n, y) ∈ newS ∧
        marshal x ≠ marshal y) := by
  constructor
  · have hdedup : dedupKeys [(a, X), (b, Y)] = [(a, X), (b, Y)] := by
      simp only [dedupKeys, List.foldl_cons, List.foldl_nil, upsert]
      rw [if_neg hab]
    have hlookA : assocLookup [(a, X), (b, Y)] a = some X := by
      simp [assocLookup, List.find?]
    have hlookC : assocLookup [(a, X), (b, Y)] c = none := by
      simp [assocLookup, List.find?, hac, hbc]
    have hmerge : mergeServers [(a, X), (b, Y)] [(a, X'), (c, Z)] =
        ([(a, X), (b, Y), (c, Z)], false) := by
      rw [mergeServers_eq_foldl, hdedup]
      simp only [List.foldl_cons, List.foldl_nil, mergeStep, hlookA]
      rw [if_neg (by simp [hXX])]
      simp only [hlookC, upsert]
      rw [if_neg hac, if_neg hbc]
    unfold mergeMCPFiles
    simp only [hex, hnew, hexo, hnewo, hservE, hservN, hmerge, not_true_eq_false,
      if_false, ite_false]
  · intro exS newS hnd h
    rw [mergeServers_eq_foldl] at h
    exact mergeFold_conflict_only_if newS (dedupKeys exS) hnd h

/-- Witness for `mcp_merge_per_server` on the concrete documents
`{"mcpServers":{"a":1,"b":2}}` and `{"mcpServers":{"a":1,"c":3}}`. -/
theorem mcp_merge_per_server_witness :
    mergeMCPFiles
      { path := ".mcp.json", content := "\x7b\"mcpServers\":\x7b\"a\":1,\"b\":2\x7d\x7d",
        ftype := "mcp" }
      { path := ".mcp.json", content := "\x7b\"mcpServers\":\x7b\"a\":1,\"c\":3\x7d\x7d",
        ftype := "mcp" } =
      .ok ({ path := ".mcp.json",
             content := marshal (.obj [("mcpServers",
               .obj [("a", .num 1), ("b", .num 2), ("c", .num 3)])]),
             ftype := "mcp" }, false) :=
  (mcp_merge_per_server _ _
    (.obj [("mcpServers", .obj [("a", .num 1), ("b", .num 2)])])
    (.obj [("mcpServers", .obj [("a", .num 1), ("c", .num 3)])])
    "a" "b" "c" (.num 1) (.num 1) (.num 2) (.num 3)
    (by
      have hp : parseJson "\x7b\"mcpServers\":\x7b\"a\":1,\"b\":2\x7d\x7d" =
          some (.obj [("mcpServers", .obj [("a", .num 1), ("b", .num 2)])]) := by rfl
      simp [goUnmarshal, hp, canon, canonFields, canonList, dedupKeys, upsert, sortFields,
        List.insertionSort, List.orderedInsert]
      decide)
    (by rfl)
    (by
      have hp : parseJson "\x7b\"mcpServers\":\x7b\"a\":1,\"c\":3\x7d\x7d" =
          some (.obj [("mcpServers", .obj [("a", .num 1), ("c", .num 3)])]) := by rfl
      simp [goUnmarshal, hp, canon, canonFields, canonList, dedupKeys, upsert, sortFields,
        List.insertionSort, List.orderedInsert]
      decide)
    (by rfl) (by rfl) (by rfl) (by rfl)
    (by decide) (by decide) (by decide)).1

/-! ## Character helpers -/

theorem char_toNat_ofNat (n : Nat) (h : n < 0xD800) : (Char.ofNat n).toNat = n := by
  simp [Char.ofNat, Nat.isValidChar, h, Char.ofNatAux, Char.toNat, UInt32.toNat,
    BitVec.toNat_ofNatLt]

theorem char_ne_of_toNat_ne (a b : Char) (h : a.toNat ≠ b.toNat) : a ≠ b :=
  fun he => h (he ▸ rfl)

theorem char_toNat_lt (c : Char) : c.toNat < 0x110000 := by
  have hv := c.valid
  simp only [Nat.isValidChar] at hv
  show c.val.toNat < _
  rcases hv with h | ⟨h1, h2⟩ <;> omega

theorem toList_mk (l : List Char) : (String.mk l).toList = l := rfl

theorem digit_char_toNat (d : Nat) (h : d < 10) : (Char.ofNat (48 + d)).toNat = 48 + d :=
  char_toNat_ofNat _ (by omega)

theorem isDigitC_iff (c : Char) : isDigitC c = true ↔ 48 ≤ c.toNat ∧ c.toNat ≤ 57 := by
  simp only [isDigitC, Bool.and_eq_true, decide_eq_true_eq]
  exact Iff.rfl

theorem isDigitC_digit_char (d : Nat) (h : d < 10) :
    isDigitC (Char.ofNat (48 + d)) = true := by
  rw [isDigitC_iff, digit_char_toNat d h]
  omega

theorem digitVal_digit_char (d : Nat) (h : d < 10) :
    digitVal (Char.ofNat (48 + d)) = d := by
  simp only [digitVal, digit_char_toNat d h]
  omega

theorem jsonWs_of_digit (c : Char) (h : isDigitC c = true) : jsonWs c = false := by
  rw [isDigitC_iff] at h
  simp only [jsonWs, Bool.or_eq_false_iff, decide_eq_false_iff_not]
  refine ⟨⟨⟨?_, ?_⟩, ?_⟩, ?_⟩
  · exact char_ne_of_toNat_ne _ _ (by rw [show (' ' : Char).toNat = 32 from rfl]; omega)
  · exact char_ne_of_toNat_ne _ _ (by rw [show ('\t' : Char).toNat = 9 from rfl]; omega)
  · exact char_ne_of_toNat_ne _ _ (by rw [show ('\n' : Char).toNat = 10 from rfl]; omega)
  · exact char_ne_of_toNat_ne _ _ (by rw [show ('\r' : Char).toNat = 13 from rfl]; omega)

/-! ## Decimal digits round-trip -/

theorem natToDigits_ne_nil (m : Nat) : natToDigits m ≠ [] := by
  rw [natToDigits.eq_def]
  by_cases h : m < 10
  · rw [if_pos h]; simp
  · rw [if_neg h]; simp

theorem natToDigits_all_digits (m : Nat) : ∀ c ∈ natToDigits m, isDigitC c = true := by
  induction m using Nat.strong_induction_on with
  | _ m ih =>
    rw [natToDigits.eq_def]
    by_cases h : m < 10
    · rw [if_pos h]
      intro c hc
      simp only [List.mem_singleton] at hc
      subst hc
      exact isDigitC_digit_char _ h
    · rw [if_neg h]
      intro c hc
      rcases List.mem_append.mp hc with h1 | h2
      · exact ih (m / 10) (Nat.div_lt_self (by omega) (by omega)) c h1
      · simp only [List.mem_singleton] at h2
        subst h2
        exact isDigitC_digit_char _ (by omega)

theorem parseDigits_append (ds : List Char) (h : ∀ c ∈ ds, isDigitC c = true)
    (rest : List Char) (hrest : noDigitHead rest = true) : ∀ acc : Nat,
    parseDigits (ds ++ rest) acc =
      (ds.foldl (fun a c => a * 10 + digitVal c) acc, rest) := by
  induction ds with
  | nil =>
    intro acc
    cases rest with
    | nil => rfl
    | cons r rs =>
      have hr : isDigitC r = false := by simpa [noDigitHead] using hrest
      simp [parseDigits, hr]
  | cons d ds ih =>
    intro acc
    have hd : isDigitC d = true := h d (by simp)
    simp only [List.cons_append, parseDigits, hd, if_true, List.foldl_cons]
    exact ih (fun c hc => h c (by simp [hc])) _

theorem foldl_natToDigits (m : Nat) : ∀ acc : Nat,
    (natToDigits m).foldl (fun a c => a * 10 + digitVal c) acc =
      acc * 10 ^ (natToDigits m).length + m := by
  induction m using Nat.strong_induction_on with
  | _ m ih =>
    intro acc
    rw [natToDigits.eq_def]
    by_cases h : m < 10
    · rw [if_pos h]
      simp only [List.foldl_cons, List.foldl_nil, List.length_singleton]
      rw [digitVal_digit_char m h]
      ring_nf
    · rw [if_neg h]
      rw [List.foldl_append]
      rw [ih (m / 10) (Nat.div_lt_self (by omega) (by omega)) acc]
      simp only [List.foldl_cons, List.foldl_nil, List.length_append,
        List.length_singleton]
      rw [digitVal_digit_char (m % 10) (by omega), pow_succ]
      have hdm := Nat.div_add_mod m 10
      have hr : (acc * 10 ^ (natToDigits (m / 10)).length + m / 10) * 10 + m % 10 =
          acc * (10 ^ (natToDigits (m / 10)).length * 10) + (10 * (m / 10) + m % 10) := by
        ring
      rw [hr, hdm]

theorem parseNumber_intToStr (n : Int) (rest : List Char) (hrest : noDigitHead rest = true) :
    parseNumber ((intToStr n).toList ++ rest) = some (n, rest) := by
  have hds := natToDigits_all_digits n.natAbs
  have hpd := parseDigits_append (natToDigits n.natAbs) hds rest hrest 0
  rw [foldl_natToDigits n.natAbs 0] at hpd
  simp only [Nat.zero_mul, Nat.zero_add] at hpd
  rcases hnn : natToDigits n.natAbs with _ | ⟨d, ds⟩
  · exact absurd hnn (natToDigits_ne_nil _)
  have hd : isDigitC d = true := hds d (by rw [hnn]; simp)
  by_cases hneg : n < 0
  · rw [intToStr, if_pos hneg, toList_mk]
    simp only [List.cons_append, parseNumber]
    rw [hnn]
    simp only [List.cons_append, hd, if_true]
    rw [← List.cons_append, ← hnn, hpd]
    have : -((n.natAbs : Nat) : Int) = n := by omega
    rw [this]
  · rw [intToStr, if_neg hneg, toList_mk, hnn]
    simp only [List.cons_append]
    rw [parseNumber.eq_def]
    split
    · rename_i cs heq
      have hd45 := (List.cons_eq_cons.mp heq).1
      rw [isDigitC_iff] at hd
      exact absurd hd45.symm
        (char_ne_of_toNat_ne _ _ (by rw [show ('-' : Char).toNat = 45 from rfl]; omega))
    · rename_i tl hguard heq
      obtain ⟨hc, hcs⟩ := List.cons_eq_cons.mp heq
      subst hc
      rw [if_pos hd]
      have hlist : d :: tl = natToDigits n.natAbs ++ rest := by
        rw [hnn, ← hcs]
        simp
      rw [hlist, hpd]
      have hcast : ((n.natAbs : Nat) : Int) = n := by omega
      simp only [hcast]
    · rename_i heq
      cases heq

/-! ## String literal round-trip -/

theorem escapeChar_length (c : Char) : 1 ≤ (escapeChar c).length := by
  unfold escapeChar
  by_cases h1 : c = '"'
  · rw [if_pos h1]; decide
  rw [if_neg h1]
  by_cases h2 : c = '\\'
  · rw [if_pos h2]; decide
  rw [if_neg h2]
  by_cases h3 : c = '\n'
  · rw [if_pos h3]; decide
  rw [if_neg h3]
  by_cases h4 : c = '\r'
  · rw [if_pos h4]; decide
  rw [if_neg h4]
  by_cases h5 : c = '\t'
  · rw [if_pos h5]; decide
  rw [if_neg h5]
  by_cases h6 : c = '<'
  · rw [if_pos h6]; decide
  rw [if_neg h6]
  by_cases h7 : c = '>'
  · rw [if_pos h7]; decide
  rw [if_neg h7]
  by_cases h8 : c = '&'
  · rw [if_pos h8]; decide
  rw [if_neg h8]
  by_cases h9 : c.toNat < 0x20
  · rw [if_pos h9]; simp
  rw [if_neg h9]
  by_cases h10 : c.toNat = 0x2028
  · rw [if_pos h10]; decide
  rw [if_neg h10]
  by_cases h11 : c.toNat = 0x2029
  · rw [if_pos h11]; decide
  rw [if_neg h11]
  simp

theorem escList_length_ge (l : List Char) :
    l.length ≤ ((l.map escapeChar).flatten).length := by
  induction l with
  | nil => simp
  | cons c cs ih =>
    simp only [List.map_cons, List.flatten_cons, List.length_cons, List.length_append]
    have := escapeChar_length c
    omega

theorem hexVal_hexDigit (m : Nat) (h : m < 16) : hexVal (hexDigit m) = m := by
  interval_cases m <;> decide

theorem parseStringBody_succ (f : Nat) (c : Char) (cs : List Char) :
    parseStringBody (f + 1) (c :: cs) =
      if c = '"' then some ([], cs)
      else if c = '\\' then
        match cs with
        | [] => none
        | e :: cs2 =>
          let cont (d : Char) (rest : List Char) : Option (List Char × List Char) :=
            (parseStringBody f rest).map (fun sr => (d :: sr.1, sr.2))
          if e = '"' then cont '"' cs2
          else if e = '\\' then cont '\\' cs2
          else if e = '/' then cont '/' cs2
          else if e = 'n' then cont '\n' cs2
          else if e = 'r' then cont '\r' cs2
          else if e = 't' then cont '\t' cs2
          else if e = 'b' then cont (Char.ofNat 8) cs2
          else if e = 'f' then cont (Char.ofNat 12) cs2
          else if e = 'u' then
            match cs2 with
            | h1 :: h2 :: h3 :: h4 :: cs3 =>
              if hexVal h1 < 16 && hexVal h2 < 16 && hexVal h3 < 16 && hexVal h4 < 16 then
                let n := hexVal h1 * 4096 + hexVal h2 * 256 + hexVal h3 * 16 + hexVal h4
                if n < 0xD800 then cont (Char.ofNat n) cs3 else none
              else none
            | _ => none
          else none
      else (parseStringBody f cs).map (fun sr => (c :: sr.1, sr.2)) := rfl

theorem parseStringBody_inv (l : List Char) : ∀ fuel rest, l.length < fuel →
    parseStringBody fuel ((l.map escapeChar).flatten ++ '"' :: rest) = some (l, rest) := by
  induction l with
  | nil =>
    intro fuel rest hf
    cases fuel with
    | zero => omega
    | succ f =>
      simp only [List.map_nil, List.flatten_nil, List.nil_append]
      rw [parseStringBody_succ, if_pos rfl]
  | cons c cs ih =>
    intro fuel rest hf
    cases fuel with
    | zero => omega
    | succ f =>
      have ihf := ih f rest (by simp at hf; omega)
      simp only [List.map_cons, List.flatten_cons, List.append_assoc]
      by_cases h1 : c = '"'
      · subst h1
        show (parseStringBody f ((List.map escapeChar cs).flatten ++ '"' :: rest)).map
          (fun sr => ('"' :: sr.1, sr.2)) = _
        rw [ihf]; rfl
      by_cases h2 : c = '\\'
      · subst h2
        show (parseStringBody f ((List.map escapeChar cs).flatten ++ '"' :: rest)).map
          (fun sr => ('\\' :: sr.1, sr.2)) = _
        rw [ihf]; rfl
      by_cases h3 : c = '\n'
      · subst h3
        show (parseStringBody f ((List.map escapeChar cs).flatten ++ '"' :: rest)).map
          (fun sr => ('\n' :: sr.1, sr.2)) = _
        rw [ihf]; rfl
      by_cases h4 : c = '\r'
      · subst h4
        show (parseStringBody f ((List.map escapeChar cs).flatten ++ '"' :: rest)).map
          (fun sr => ('\r' :: sr.1, sr.2)) = _
        rw [ihf]; rfl
      by_cases h5 : c = '\t'
      · subst h5
        show (parseStringBody f ((List.map escapeChar cs).flatten ++ '"' :: rest)).map
          (fun sr => ('\t' :: sr.1, sr.2)) = _
        rw [ihf]; rfl
      by_cases h6 : c = '<'
      · subst h6
        show (parseStringBody f ((List.map escapeChar cs).flatten ++ '"' :: rest)).map
          (fun sr => (Char.ofNat 0x3c :: sr.1, sr.2)) = _
        rw [ihf]; rfl
      by_cases h7 : c = '>'
      · subst h7
        show (parseStringBody f ((List.map escapeChar cs).flatten ++ '"' :: rest)).map
          (fun sr => (Char.ofNat 0x3e :: sr.1, sr.2)) = _
        rw [ihf]; rfl
      by_cases h8 : c = '&'
      · subst h8
        show (parseStringBody f ((List.map escapeChar cs).flatten ++ '"' :: rest)).map
          (fun sr => (Char.ofNat 0x26 :: sr.1, sr.2)) = _
        rw [ihf]; rfl
      by_cases h9 : c.toNat < 0x20
      · have hq : hexVal (hexDigit (c.toNat / 16)) = c.toNat / 16 :=
          hexVal_hexDigit _ (by omega)
        have hr : hexVal (hexDigit (c.toNat % 16)) = c.toNat % 16 :=
          hexVal_hexDigit _ (by omega)
        have hesc : escapeChar c =
            ['\\', 'u', '0', '0', hexDigit (c.toNat / 16), hexDigit (c.toNat % 16)] := by
          unfold escapeChar
          rw [if_neg h1, if_neg h2, if_neg h3, if_neg h4, if_neg h5, if_neg h6, if_neg h7,
            if_neg h8, if_pos h9]
        rw [hesc]
        show (if (hexVal (hexDigit (c.toNat / 16)) < 16 &&
            hexVal (hexDigit (c.toNat % 16)) < 16) then
            (if hexVal '0' * 4096 + hexVal '0' * 256 + hexVal (hexDigit (c.toNat / 16)) * 16 +
                hexVal (hexDigit (c.toNat % 16)) < 0xD800 then
              (parseStringBody f ((List.map escapeChar cs).flatten ++ '"' :: rest)).map
                (fun sr => (Char.ofNat (hexVal '0' * 4096 + hexVal '0' * 256 +
                  hexVal (hexDigit (c.toNat / 16)) * 16 + hexVal (hexDigit (c.toNat % 16))) ::
                    sr.1, sr.2))
            else none)
          else none) = some (c :: cs, rest)
        rw [hq, hr, show hexVal '0' = 0 from rfl]
        rw [if_pos (by simp only [Bool.and_eq_true, decide_eq_true_eq]; omega)]
        rw [if_pos (by omega)]
        rw [show 0 * 4096 + 0 * 256 + c.toNat / 16 * 16 + c.toNat % 16 = c.toNat from by omega]
        rw [Char.ofNat_toNat, ihf]
        rfl
      by_cases h10 : c.toNat = 0x2028
      · rw [show c = Char.ofNat 0x2028 from by rw [← Char.ofNat_toNat c, h10]]
        show (parseStringBody f ((List.map escapeChar cs).flatten ++ '"' :: rest)).map
          (fun sr => (Char.ofNat 0x2028 :: sr.1, sr.2)) = _
        rw [ihf]; rfl
      by_cases h11 : c.toNat = 0x2029
      · rw [show c = Char.ofNat 0x2029 from by rw [← Char.ofNat_toNat c, h11]]
        show (parseStringBody f ((List.map escapeChar cs).flatten ++ '"' :: rest)).map
          (fun sr => (Char.ofNat 0x2029 :: sr.1, sr.2)) = _
        rw [ihf]; rfl
      · have hesc : escapeChar c = [c] := by
          unfold escapeChar
          rw [if_neg h1, if_neg h2, if_neg h3, if_neg h4, if_neg h5, if_neg h6, if_neg h7,
            if_neg h8, if_neg h9, if_neg h10, if_neg h11]
        rw [hesc]
        simp only [List.cons_append, List.nil_append]
        rw [parseStringBody_succ, if_neg h1, if_neg h2, ihf]
        rfl

/-! ## Serialized output shape -/

theorem serializeStr_toList (t : String) :
    (serializeStr t).toList = '"' :: ((t.toList.map escapeChar).flatten ++ ['"']) := rfl

theorem skipWs_cons (c : Char) (l : List Char) (h : jsonWs c = false) :
    skipWs (c :: l) = c :: l := by
  simp [skipWs, List.dropWhile_cons, h]

theorem serializeRaw_head (v : Json) :
    ∃ c l, (serializeRaw v).toList = c :: l ∧ jsonWs c = false ∧ c ≠ ']' := by
  cases v with
  | null => exact ⟨'n', ['u', 'l', 'l'], by simp only [serializeRaw]; rfl, by decide, by decide⟩
  | bool b =>
    cases b with
    | true => exact ⟨'t', ['r', 'u', 'e'], by simp only [serializeRaw]; rfl, by decide, by decide⟩
    | false =>
      exact ⟨'f', ['a', 'l', 's', 'e'], by simp only [serializeRaw]; rfl, by decide, by decide⟩
  | num n =>
    by_cases hn : n < 0
    · refine ⟨'-', natToDigits n.natAbs, ?_, by decide, by decide⟩
      simp only [serializeRaw, intToStr, if_pos hn, toList_mk]
    · rcases hnn : natToDigits n.natAbs with _ | ⟨d, ds⟩
      · exact absurd hnn (natToDigits_ne_nil _)
      have hd : isDigitC d = true := natToDigits_all_digits n.natAbs d (by rw [hnn]; simp)
      refine ⟨d, ds, ?_, jsonWs_of_digit d hd, ?_⟩
      · simp only [serializeRaw, intToStr, if_neg hn, toList_mk, hnn]
      · rw [isDigitC_iff] at hd
        exact char_ne_of_toNat_ne _ _ (by rw [show (']' : Char).toNat = 93 from rfl]; omega)
  | str t =>
    exact ⟨'"', (t.toList.map escapeChar).flatten ++ ['"'],
      by simp only [serializeRaw, serializeStr_toList], by decide, by decide⟩
  | arr xs =>
    refine ⟨'[', (serializeElems xs).toList ++ [']'], ?_, by decide, by decide⟩
    simp only [serializeRaw, toList_append]
    rfl
  | obj kvs =>
    refine ⟨'\x7b', (serializeFields kvs).toList ++ ['\x7d'], ?_, by decide, by decide⟩
    simp only [serializeRaw, toList_append]
    rfl

theorem serializeElems_head (xs : List Json) (hne : xs ≠ []) :
    ∃ c l, (serializeElems xs).toList = c :: l ∧ jsonWs c = false ∧ c ≠ ']' := by
  rcases xs with _ | ⟨x, rest⟩
  · exact absurd rfl hne
  obtain ⟨c, l, hcl, hws, hcne⟩ := serializeRaw_head x
  rcases rest with _ | ⟨y, rest2⟩
  · exact ⟨c, l, by simp only [serializeElems, hcl], hws, hcne⟩
  · refine ⟨c, l ++ (',' :: (serializeElems (y :: rest2)).toList), ?_, hws, hcne⟩
    simp only [serializeElems, toList_append, hcl]
    simp [List.append_assoc]

theorem serializeFields_head (k : String) (v : Json) (kvs : List (String × Json)) :
    ∃ l, (serializeFields ((k, v) :: kvs)).toList =
      '"' :: (((k.toList.map escapeChar).flatten ++ ['"']) ++ l) := by
  rcases kvs with _ | ⟨kv2, rest2⟩
  · refine ⟨':' :: (serializeRaw v).toList, ?_⟩
    simp only [serializeFields, toList_append, serializeStr_toList]
    simp [List.append_assoc]
  · refine ⟨':' :: ((serializeRaw v).toList ++
      (',' :: (serializeFields (kv2 :: rest2)).toList)), ?_⟩
    simp only [serializeFields, toList_append, serializeStr_toList]
    simp [List.append_assoc]

/-! ## Parser step equations -/

theorem parseVal_succ (f : Nat) (cs : List Char) :
    parseVal (f + 1) cs =
      match skipWs cs with
      | [] => none
      | c :: cs2 =>
        if c = '\x7b' then
          match skipWs cs2 with
          | '\x7d' :: rest => some (.obj [], rest)
          | _ => (parseFields f cs2).map (fun fr => (.obj fr.1, fr.2))
        else if c = '[' then
          match skipWs cs2 with
          | ']' :: rest => some (.arr [], rest)
          | _ => (parseElems f cs2).map (fun er => (.arr er.1, er.2))
        else if c = '"' then
          (parseStringBody (cs2.length + 1) cs2).map
            (fun sr => (.str (String.mk sr.1), sr.2))
        else if c = 't' then
          match cs2 with
          | 'r' :: 'u' :: 'e' :: rest => some (.bool true, rest)
          | _ => none
        else if c = 'f' then
          match cs2 with
          | 'a' :: 'l' :: 's' :: 'e' :: rest => some (.bool false, rest)
          | _ => none
        else if c = 'n' then
          match cs2 with
          | 'u' :: 'l' :: 'l' :: rest => some (.null, rest)
          | _ => none
        else
          (parseNumber (c :: cs2)).map (fun nr => (.num nr.1, nr.2)) := rfl

theorem parseFields_succ (f : Nat) (cs : List Char) :
    parseFields (f + 1) cs =
      match skipWs cs with
      | '"' :: cs2 =>
        match parseStringBody (cs2.length + 1) cs2 with
        | none => none
        | some kr =>
          match skipWs kr.2 with
          | ':' :: cs3 =>
            match parseVal f cs3 with
            | none => none
            | some vr =>
              match skipWs vr.2 with
              | ',' :: rest =>
                (parseFields f rest).map
                  (fun fr => ((String.mk kr.1, vr.1) :: fr.1, fr.2))
              | '\x7d' :: rest => some ([(String.mk kr.1, vr.1)], rest)
              | _ => none
          | _ => none
      | _ => none := rfl

theorem parseElems_succ (f : Nat) (cs : List Char) :
    parseElems (f + 1) cs =
      match parseVal f cs with
      | none => none
      | some vr =>
        match skipWs vr.2 with
        | ',' :: rest => (parseElems f rest).map (fun er => (vr.1 :: er.1, er.2))
        | ']' :: rest => some ([vr.1], rest)
        | _ => none := rfl

theorem data_append (a b : String) : (a ++ b).data = a.data ++ b.data := rfl

theorem serializeStr_data (t : String) :
    (serializeStr t).data = '"' :: ((t.data.map escapeChar).flatten ++ ['"']) := rfl

theorem parseVal_succ_obj (f : Nat) (tail : List Char) :
    parseVal (f + 1) ('\x7b' :: tail) =
      (match skipWs tail with
       | '\x7d' :: rest => some (.obj [], rest)
       | _ => (parseFields f tail).map (fun fr => (.obj fr.1, fr.2))) := rfl

theorem parseVal_succ_arr (f : Nat) (tail : List Char) :
    parseVal (f + 1) ('[' :: tail) =
      (match skipWs tail with
       | ']' :: rest => some (.arr [], rest)
       | _ => (parseElems f tail).map (fun er => (.arr er.1, er.2))) := rfl

theorem parseVal_succ_num (f : Nat) (d : Char) (tail : List Char)
    (hws : jsonWs d = false)
    (h1 : d ≠ '\x7b') (h2 : d ≠ '[') (h3 : d ≠ '"') (h4 : d ≠ 't') (h5 : d ≠ 'f')
    (h6 : d ≠ 'n') :
    parseVal (f + 1) (d :: tail) =
      (parseNumber (d :: tail)).map (fun nr => (.num nr.1, nr.2)) := by
  rw [parseVal_succ, skipWs_cons _ _ hws]
  split
  · rename_i heq
    cases heq
  · rename_i c cs2 heq
    obtain ⟨hc, hcs⟩ := List.cons_eq_cons.mp heq
    subst hc
    subst hcs
    rw [if_neg h1, if_neg h2, if_neg h3, if_neg h4, if_neg h5, if_neg h6]

theorem skipWs_comma (l : List Char) : skipWs (',' :: l) = ',' :: l :=
  skipWs_cons _ _ (by decide)

theorem skipWs_colon (l : List Char) : skipWs (':' :: l) = ':' :: l :=
  skipWs_cons _ _ (by decide)

theorem skipWs_rbrace (l : List Char) : skipWs ('\x7d' :: l) = '\x7d' :: l :=
  skipWs_cons _ _ (by decide)

theorem skipWs_rbrack (l : List Char) : skipWs (']' :: l) = ']' :: l :=
  skipWs_cons _ _ (by decide)

theorem len_toList_append (a b : String) :
    (a ++ b).toList.length = a.toList.length + b.toList.length := by
  rw [toList_append, List.length_append]

/-- The serialized form of a canonical value parses back to exactly that
value (stated for all three mutual parsers at once, by induction on the
fuel). -/
theorem parse_serialize_all (fuel : Nat) :
    (∀ v rest, isCanon v = true → (serializeRaw v).toList.length ≤ fuel →
        noDigitHead rest = true →
        parseVal fuel ((serializeRaw v).toList ++ rest) = some (v, rest)) ∧
    (∀ kvs rest, kvs ≠ [] → isCanonFields kvs = true →
        (serializeFields kvs).toList.length + 1 ≤ fuel →
        parseFields fuel ((serializeFields kvs).toList ++ '\x7d' :: rest) =
          some (kvs, rest)) ∧
    (∀ xs rest, xs ≠ [] → isCanonList xs = true →
        (serializeElems xs).toList.length + 1 ≤ fuel →
        parseElems fuel ((serializeElems xs).toList ++ ']' :: rest) = some (xs, rest)) := by
  induction fuel with
  | zero =>
    refine ⟨?_, ?_, ?_⟩
    · intro v rest hc hlen hrest
      obtain ⟨c, l, hcl, -, -⟩ := serializeRaw_head v
      rw [hcl] at hlen
      simp at hlen
    · intro kvs rest hne hcf hlen
      omega
    · intro xs rest hne hcl hlen
      omega
  | succ f ih =>
    obtain ⟨ihV, ihF, ihE⟩ := ih
    refine ⟨?_, ?_, ?_⟩
    · -- parseVal
      intro v rest hc hlen hrest
      cases v with
      | null =>
        simp only [serializeRaw]
        rfl
      | bool b =>
        cases b with
        | true => simp only [serializeRaw]; rfl
        | false => simp only [serializeRaw]; rfl
      | num n =>
        simp only [serializeRaw]
        by_cases hn : n < 0
        · rw [intToStr, if_pos hn, toList_mk]
          simp only [List.cons_append]
          rw [parseVal_succ_num f '-' _ (by decide) (by decide) (by decide) (by decide)
            (by decide) (by decide) (by decide)]
          rw [show '-' :: (natToDigits n.natAbs ++ rest) = (intToStr n).toList ++ rest from by
            rw [intToStr, if_pos hn, toList_mk]
            rfl]
          rw [parseNumber_intToStr n rest hrest]
          rfl
        · rcases hnn : natToDigits n.natAbs with _ | ⟨d, ds⟩
          · exact absurd hnn (natToDigits_ne_nil _)
          have hd : isDigitC d = true := natToDigits_all_digits _ d (by rw [hnn]; simp)
          have hdb := (isDigitC_iff d).mp hd
          rw [intToStr, if_neg hn, toList_mk, hnn]
          simp only [List.cons_append]
          rw [parseVal_succ_num f d _ (jsonWs_of_digit d hd)
            (char_ne_of_toNat_ne _ _ (by rw [show ('\x7b' : Char).toNat = 123 from rfl]; omega))
            (char_ne_of_toNat_ne _ _ (by rw [show ('[' : Char).toNat = 91 from rfl]; omega))
            (char_ne_of_toNat_ne _ _ (by rw [show ('"' : Char).toNat = 34 from rfl]; omega))
            (char_ne_of_toNat_ne _ _ (by rw [show ('t' : Char).toNat = 116 from rfl]; omega))
            (char_ne_of_toNat_ne _ _ (by rw [show ('f' : Char).toNat = 102 from rfl]; omega))
            (char_ne_of_toNat_ne _ _ (by rw [show ('n' : Char).toNat = 110 from rfl]; omega))]
          rw [show d :: (ds ++ rest) = (intToStr n).toList ++ rest from by
            rw [intToStr, if_neg hn, toList_mk, hnn]
            rfl]
          rw [parseNumber_intToStr n rest hrest]
          rfl
      | str t =>
        simp only [serializeRaw, serializeStr_toList]
        simp only [List.cons_append, List.append_assoc, List.singleton_append]
        have hb : t.toList.length <
            ((t.toList.map escapeChar).flatten ++ '"' :: rest).length + 1 := by
          have := escList_length_ge t.toList
          simp only [List.length_append, List.length_cons]
          omega
        show (parseStringBody (((t.toList.map escapeChar).flatten ++ '"' :: rest).length + 1)
            ((t.toList.map escapeChar).flatten ++ '"' :: rest)).map
            (fun sr => (Json.str (String.mk sr.1), sr.2)) = some (.str t, rest)
        rw [parseStringBody_inv t.toList _ rest hb]
        rfl
      | arr xs =>
        rcases xs with _ | ⟨x, xs2⟩
        · simp only [serializeRaw, serializeElems]
          rfl
        · simp only [isCanon] at hc
          obtain ⟨c0, l0, hcl, hws0, hne0⟩ := serializeElems_head (x :: xs2) (by simp)
          have hlen2 : (serializeElems (x :: xs2)).toList.length + 1 ≤ f := by
            simp only [serializeRaw] at hlen
            rw [len_toList_append, len_toList_append,
              show ("[" : String).toList.length = 1 from rfl,
              show ("]" : String).toList.length = 1 from rfl] at hlen
            omega
          simp only [serializeRaw]
          rw [show ("[" ++ serializeElems (x :: xs2) ++ "]").toList ++ rest =
              '[' :: ((serializeElems (x :: xs2)).toList ++ (']' :: rest)) from by
            simp [toList_append, List.append_assoc, data_append]]
          rw [parseVal_succ_arr]
          rw [hcl]
          simp only [List.cons_append]
          rw [skipWs_cons _ _ hws0]
          split
          · rename_i rest2 heq
            exact absurd (List.cons_eq_cons.mp heq).1 (fun h => hne0 h)
          · rw [show c0 :: (l0 ++ ']' :: rest) =
                (serializeElems (x :: xs2)).toList ++ ']' :: rest from by
              rw [hcl]
              simp]
            rw [ihE (x :: xs2) rest (by simp) hc hlen2]
            rfl
      | obj kvs =>
        rcases kvs with _ | ⟨⟨k, v⟩, kvs2⟩
        · simp only [serializeRaw, serializeFields]
          rfl
        · simp only [isCanon, Bool.and_eq_true] at hc
          obtain ⟨l1, hF⟩ := serializeFields_head k v kvs2
          have hlen2 : (serializeFields ((k, v) :: kvs2)).toList.length + 1 ≤ f := by
            simp only [serializeRaw] at hlen
            rw [len_toList_append, len_toList_append,
              show ("\x7b" : String).toList.length = 1 from rfl,
              show ("\x7d" : String).toList.length = 1 from rfl] at hlen
            omega
          simp only [serializeRaw]
          rw [show ("\x7b" ++ serializeFields ((k, v) :: kvs2) ++ "\x7d").toList ++ rest =
              '\x7b' :: ((serializeFields ((k, v) :: kvs2)).toList ++ ('\x7d' :: rest)) from by
            simp [toList_append, List.append_assoc, data_append]]
          rw [parseVal_succ_obj]
          rw [hF]
          simp only [List.cons_append]
          rw [skipWs_cons _ _ (by decide)]
          split
          · rename_i rest2 heq
            exact absurd (List.cons_eq_cons.mp heq).1 (by decide)
          · rw [show '"' :: ((((k.toList.map escapeChar).flatten ++ ['"']) ++ l1) ++
                '\x7d' :: rest) =
                (serializeFields ((k, v) :: kvs2)).toList ++ '\x7d' :: rest from by
              rw [hF]
              simp]
            rw [ihF ((k, v) :: kvs2) rest (by simp) hc.2 hlen2]
            rfl
    · -- parseFields
      intro kvs rest hne hcf hlen
      rcases kvs with _ | ⟨⟨k, v⟩, kvs2⟩
      · exact absurd rfl hne
      simp only [isCanonFields, Bool.and_eq_true] at hcf
      rcases kvs2 with _ | ⟨⟨k2, v2⟩, kvs3⟩
      · -- single field
        have hlenv : (serializeRaw v).toList.length ≤ f := by
          simp only [serializeFields] at hlen
          rw [len_toList_append, len_toList_append, serializeStr_toList] at hlen
          rw [show (":" : String).toList.length = 1 from rfl] at hlen
          simp only [List.length_cons, List.length_append] at hlen
          omega
        simp only [serializeFields]
        rw [show (serializeStr k ++ ":" ++ serializeRaw v).toList ++ '\x7d' :: rest =
            '"' :: ((k.toList.map escapeChar).flatten ++
              '"' :: (':' :: ((serializeRaw v).toList ++ '\x7d' :: rest))) from by
          simp [toList_append, serializeStr_toList, List.append_assoc, data_append, serializeStr_data]]
        rw [parseFields_succ, skipWs_cons _ _ (by decide)]
        have hpsb := parseStringBody_inv k.toList
          (((k.toList.map escapeChar).flatten ++
            '"' :: (':' :: ((serializeRaw v).toList ++ '\x7d' :: rest))).length + 1)
          (':' :: ((serializeRaw v).toList ++ '\x7d' :: rest))
          (by
            have := escList_length_ge k.toList
            simp only [List.length_append, List.length_cons]
            omega)
        simp only [hpsb]
        simp only [skipWs_colon]
        have hv := ihV v ('\x7d' :: rest) hcf.1 hlenv rfl
        simp only [hv]
        simp only [skipWs_rbrace]
        simp only [strMk_toList]
      · -- at least two fields
        have hlenv : (serializeRaw v).toList.length ≤ f := by
          simp only [serializeFields] at hlen
          rw [len_toList_append, len_toList_append, len_toList_append, len_toList_append,
            serializeStr_toList] at hlen
          rw [show (":" : String).toList.length = 1 from rfl,
            show ("," : String).toList.length = 1 from rfl] at hlen
          simp only [List.length_cons, List.length_append] at hlen
          omega
        have hlenf : (serializeFields ((k2, v2) :: kvs3)).toList.length + 1 ≤ f := by
          simp only [serializeFields] at hlen
          rw [len_toList_append, len_toList_append, len_toList_append, len_toList_append,
            serializeStr_toList] at hlen
          rw [show (":" : String).toList.length = 1 from rfl,
            show ("," : String).toList.length = 1 from rfl] at hlen
          simp only [List.length_cons, List.length_append] at hlen
          omega
        simp only [serializeFields]
        rw [show (serializeStr k ++ ":" ++ serializeRaw v ++ "," ++
              serializeFields ((k2, v2) :: kvs3)).toList ++ '\x7d' :: rest =
            '"' :: ((k.toList.map escapeChar).flatten ++
              '"' :: (':' :: ((serializeRaw v).toList ++
                ',' :: ((serializeFields ((k2, v2) :: kvs3)).toList ++ '\x7d' :: rest)))) from by
          simp [toList_append, serializeStr_toList, List.append_assoc, data_append, serializeStr_data]]
        rw [parseFields_succ, skipWs_cons _ _ (by decide)]
        have hpsb := parseStringBody_inv k.toList
          (((k.toList.map escapeChar).flatten ++
            '"' :: (':' :: ((serializeRaw v).toList ++
              ',' :: ((serializeFields ((k2, v2) :: kvs3)).toList ++
                '\x7d' :: rest)))).length + 1)
          (':' :: ((serializeRaw v).toList ++
            ',' :: ((serializeFields ((k2, v2) :: kvs3)).toList ++ '\x7d' :: rest)))
          (by
            have := escList_length_ge k.toList
            simp only [List.length_append, List.length_cons]
            omega)
        simp only [hpsb]
        simp only [skipWs_colon]
        have hv := ihV v
          (',' :: ((serializeFields ((k2, v2) :: kvs3)).toList ++ '\x7d' :: rest))
          hcf.1 hlenv rfl
        simp only [hv]
        simp only [skipWs_comma]
        rw [ihF ((k2, v2) :: kvs3) rest (by simp) hcf.2 hlenf]
        simp only [strMk_toList]
        rfl
    · -- parseElems
      intro xs rest hne hcl hlen
      rcases xs with _ | ⟨x, xs2⟩
      · exact absurd rfl hne
      simp only [isCanonList, Bool.and_eq_true] at hcl
      rcases xs2 with _ | ⟨y, xs3⟩
      · -- single element
        have hlenv : (serializeRaw x).toList.length ≤ f := by
          simp only [serializeElems] at hlen
          omega
        simp only [serializeElems]
        rw [parseElems_succ]
        have hv := ihV x (']' :: rest) hcl.1 hlenv rfl
        simp only [hv]
        simp only [skipWs_rbrack]
      · -- at least two elements
        have hlenv : (serializeRaw x).toList.length ≤ f := by
          simp only [serializeElems] at hlen
          rw [len_toList_append, len_toList_append,
            show ("," : String).toList.length = 1 from rfl] at hlen
          omega
        have hlene : (serializeElems (y :: xs3)).toList.length + 1 ≤ f := by
          simp only [serializeElems] at hlen
          rw [len_toList_append, len_toList_append,
            show ("," : String).toList.length = 1 from rfl] at hlen
          omega
        simp only [serializeElems]
        rw [show (serializeRaw x ++ "," ++ serializeElems (y :: xs3)).toList ++ ']' :: rest =
            (serializeRaw x).toList ++
              ',' :: ((serializeElems (y :: xs3)).toList ++ ']' :: rest) from by
          simp [toList_append, List.append_assoc, data_append]]
        rw [parseElems_succ]
        have hv := ihV x (',' :: ((serializeElems (y :: xs3)).toList ++ ']' :: rest))
          hcl.1 hlenv rfl
        simp only [hv]
        simp only [skipWs_comma]
        rw [ihE (y :: xs3) rest (by simp) hcl.2 hlene]
        rfl


theorem parseJson_serializeRaw (v : Json) (hc : isCanon v = true) :
    parseJson (serializeRaw v) = some v := by
  unfold parseJson
  have h := (parse_serialize_all ((serializeRaw v).toList.length + 1)).1 v [] hc
    (by omega) rfl
  rw [List.append_nil] at h
  simp only [h]
  rfl

/-! ## Canonical values: `canon` is a projection onto `isCanon` -/

theorem strictSorted_iff (ks : List String) :
    strictSorted ks = true ↔ ks.Chain' (· < ·) := by
  induction ks with
  | nil => simp [strictSorted]
  | cons a ks ih =>
    cases ks with
    | nil => simp [strictSorted]
    | cons b t =>
      simp only [strictSorted, Bool.and_eq_true, decide_eq_true_eq,
        List.chain'_cons, ih]

theorem strictSorted_pairwise (ks : List String) (h : strictSorted ks = true) :
    ks.Pairwise (· < ·) :=
  List.chain'_iff_pairwise.mp ((strictSorted_iff ks).mp h)

theorem pairwise_strictSorted (ks : List String) (h : ks.Pairwise (· < ·)) :
    strictSorted ks = true :=
  (strictSorted_iff ks).mpr (List.chain'_iff_pairwise.mpr h)

theorem mem_of_mem_upsert {α : Type} (m : List (String × α)) (k : String) (v : α)
    (p : String × α) (h : p ∈ upsert m k v) : p ∈ m ∨ p = (k, v) := by
  induction m with
  | nil => simpa [upsert] using h
  | cons kv rest ih =>
    simp only [upsert] at h
    by_cases hc : kv.1 = k
    · rw [if_pos hc] at h
      rcases List.mem_cons.mp h with he | hr
      · exact Or.inr he
      · exact Or.inl (List.mem_cons_of_mem _ hr)
    · rw [if_neg hc] at h
      rcases List.mem_cons.mp h with he | hr
      · exact Or.inl (he ▸ List.mem_cons_self _ _)
      · rcases ih hr with h1 | h1
        · exact Or.inl (List.mem_cons_of_mem _ h1)
        · exact Or.inr h1

theorem mem_of_mem_dedupKeys (l : List (String × Json)) (p : String × Json)
    (h : p ∈ dedupKeys l) : p ∈ l := by
  suffices H : ∀ acc : List (String × Json),
      p ∈ l.foldl (fun acc kv => upsert acc kv.1 kv.2) acc → p ∈ acc ∨ p ∈ l from
    (H [] h).resolve_left (by simp)
  clear h
  induction l with
  | nil => intro acc h; exact Or.inl h
  | cons kv rest ih =>
    intro acc h
    rcases ih _ h with h1 | h1
    · rcases mem_of_mem_upsert _ _ _ _ h1 with h2 | h2
      · exact Or.inl h2
      · exact Or.inr (by simp [h2])
    · exact Or.inr (List.mem_cons_of_mem _ h1)

theorem dedupKeys_keys_nodup (l : List (String × Json)) :
    ((dedupKeys l).map (·.1)).Nodup := by
  suffices H : ∀ acc : List (String × Json), ((acc.map (·.1)).Nodup) →
      (((l.foldl (fun acc kv => upsert acc kv.1 kv.2) acc).map (·.1)).Nodup) from
    H [] (by simp)
  induction l with
  | nil => intro acc h; exact h
  | cons kv rest ih =>
    intro acc h
    exact ih _ (upsert_keys_nodup _ _ _ h)

theorem upsert_of_key_not_mem {α : Type} (m : List (String × α)) (k : String) (v : α)
    (h : k ∉ m.map (·.1)) : upsert m k v = m ++ [(k, v)] := by
  induction m with
  | nil => rfl
  | cons kv rest ih =>
    simp only [List.map_cons, List.mem_cons] at h
    push_neg at h
    simp only [upsert]
    rw [if_neg (fun he => h.1 he.symm)]
    rw [ih h.2]
    rfl

theorem dedupKeys_eq_self (l : List (String × Json)) (h : (l.map (·.1)).Nodup) :
    dedupKeys l = l := by
  suffices H : ∀ acc : List (String × Json), (((acc ++ l).map (·.1)).Nodup) →
      l.foldl (fun acc kv => upsert acc kv.1 kv.2) acc = acc ++ l by
    have := H [] (by simpa using h)
    simpa using this
  clear h
  induction l with
  | nil => intro acc h; simp
  | cons kv rest ih =>
    intro acc h
    simp only [List.foldl_cons]
    have hkey : kv.1 ∉ acc.map (·.1) := by
      intro hmem
      rw [List.map_append] at h
      rcases List.nodup_append.mp h with ⟨-, -, hdisj⟩
      exact hdisj hmem (by simp)
    rw [upsert_of_key_not_mem _ _ _ hkey]
    rw [ih (acc ++ [kv]) (by simpa using h)]
    simp

theorem sortFields_perm (l : List (String × Json)) : (sortFields l).Perm l :=
  List.perm_insertionSort _ l

instance : IsTotal (String × Json) (fun a b : String × Json => a.1 ≤ b.1) :=
  ⟨fun a b => le_total a.1 b.1⟩

instance : IsTrans (String × Json) (fun a b : String × Json => a.1 ≤ b.1) :=
  ⟨fun _ _ _ => le_trans⟩

theorem sortFields_sorted (l : List (String × Json)) :
    (sortFields l).Pairwise (fun a b => a.1 ≤ b.1) :=
  List.sorted_insertionSort _ l

theorem sortFields_eq_self (l : List (String × Json))
    (h : l.Pairwise (fun a b => a.1 ≤ b.1)) : sortFields l = l :=
  List.Sorted.insertionSort_eq h

theorem isCanonFields_iff (l : List (String × Json)) :
    isCanonFields l = true ↔ ∀ p ∈ l, isCanon p.2 = true := by
  induction l with
  | nil => simp [isCanonFields]
  | cons kv rest ih =>
    rcases kv with ⟨k, v⟩
    simp [isCanonFields, Bool.and_eq_true, ih]

theorem isCanonList_iff (l : List Json) :
    isCanonList l = true ↔ ∀ x ∈ l, isCanon x = true := by
  induction l with
  | nil => simp [isCanonList]
  | cons x rest ih =>
    simp [isCanonList, Bool.and_eq_true, ih]

theorem mem_canonList (l : List Json) (y : Json) (h : y ∈ canonList l) :
    ∃ x ∈ l, y = canon x := by
  induction l with
  | nil => simp [canonList] at h
  | cons x rest ih =>
    rw [canonList] at h
    rcases List.mem_cons.mp h with he | hr
    · exact ⟨x, by simp, he⟩
    · obtain ⟨x2, hx2, hy⟩ := ih hr
      exact ⟨x2, by simp [hx2], hy⟩

theorem mem_canonFields (l : List (String × Json)) (p : String × Json)
    (h : p ∈ canonFields l) : ∃ q ∈ l, p = (q.1, canon q.2) := by
  induction l with
  | nil => simp [canonFields] at h
  | cons kv rest ih =>
    rcases kv with ⟨k, v⟩
    rw [canonFields] at h
    rcases List.mem_cons.mp h with he | hr
    · exact ⟨(k, v), by simp, he⟩
    · obtain ⟨q, hq, hp⟩ := ih hr
      exact ⟨q, by simp [hq], hp⟩

theorem sizeOf_mem_arr (xs : List Json) (x : Json) (h : x ∈ xs) :
    sizeOf x < sizeOf (Json.arr xs) := by
  have h1 := List.sizeOf_lt_of_mem h
  simp only [Json.arr.sizeOf_spec]
  omega

theorem sizeOf_mem_obj (kvs : List (String × Json)) (k : String) (v : Json)
    (h : (k, v) ∈ kvs) : sizeOf v < sizeOf (Json.obj kvs) := by
  have h1 := List.sizeOf_lt_of_mem h
  simp only [Json.obj.sizeOf_spec, Prod.mk.sizeOf_spec] at h1 ⊢
  omega

theorem isCanon_canon (v : Json) : isCanon (canon v) = true := by
  suffices H : ∀ n, ∀ v : Json, sizeOf v ≤ n → isCanon (canon v) = true from
    H (sizeOf v) v le_rfl
  intro n
  induction n with
  | zero =>
    intro v hv
    exfalso
    cases v <;> simp at hv
  | succ n ihn =>
    intro v hv
    cases v with
    | null => simp [canon, isCanon]
    | bool b => simp [canon, isCanon]
    | num m => simp [canon, isCanon]
    | str t => simp [canon, isCanon]
    | arr xs =>
      rw [canon, isCanon]
      rw [isCanonList_iff]
      intro y hy
      obtain ⟨x, hx, hyx⟩ := mem_canonList xs y hy
      have hs : sizeOf x ≤ n := by
        have := sizeOf_mem_arr xs x hx
        omega
      rw [hyx]
      exact ihn x hs
    | obj kvs =>
      rw [canon, isCanon, Bool.and_eq_true]
      constructor
      · -- keys strictly sorted
        apply pairwise_strictSorted
        have hsorted := sortFields_sorted (dedupKeys (canonFields kvs))
        have hle : ((sortFields (dedupKeys (canonFields kvs))).map (·.1)).Pairwise
            (· ≤ ·) := List.Pairwise.map _ (fun a b hab => hab) hsorted
        have hnd : ((sortFields (dedupKeys (canonFields kvs))).map (·.1)).Nodup := by
          have hperm := (sortFields_perm (dedupKeys (canonFields kvs))).map (·.1)
          exact hperm.nodup_iff.mpr (dedupKeys_keys_nodup (canonFields kvs))
        exact (hle.and hnd).imp fun hab => lt_of_le_of_ne hab.1 hab.2
      · rw [isCanonFields_iff]
        intro p hp
        have hp2 := (sortFields_perm (dedupKeys (canonFields kvs))).mem_iff.mp hp
        have hp3 := mem_of_mem_dedupKeys _ _ hp2
        obtain ⟨q, hq, hpq⟩ := mem_canonFields kvs p hp3
        have hs : sizeOf q.2 ≤ n := by
          have := sizeOf_mem_obj kvs q.1 q.2 (by simpa using hq)
          omega
        rw [hpq]
        exact ihn q.2 hs

theorem canonList_eq_self (xs : List Json) (h : ∀ x ∈ xs, canon x = x) :
    canonList xs = xs := by
  induction xs with
  | nil => rfl
  | cons x rest ih =>
    rw [canonList, h x (by simp), ih (fun y hy => h y (by simp [hy]))]

theorem canonFields_eq_self (kvs : List (String × Json))
    (h : ∀ p ∈ kvs, canon p.2 = p.2) : canonFields kvs = kvs := by
  induction kvs with
  | nil => rfl
  | cons kv rest ih =>
    rcases kv with ⟨k, v⟩
    rw [canonFields, h (k, v) (by simp), ih (fun p hp => h p (by simp [hp]))]

theorem canon_eq_of_isCanon (v : Json) (hc : isCanon v = true) : canon v = v := by
  suffices H : ∀ n, ∀ v : Json, sizeOf v ≤ n → isCanon v = true → canon v = v from
    H (sizeOf v) v le_rfl hc
  clear hc
  intro n
  induction n with
  | zero =>
    intro v hv
    exfalso
    cases v <;> simp at hv
  | succ n ihn =>
    intro v hv hc
    cases v with
    | null => rfl
    | bool b => rfl
    | num m => rfl
    | str t => rfl
    | arr xs =>
      rw [isCanon] at hc
      rw [canon]
      rw [canonList_eq_self xs (fun x hx => ihn x
        (by have := sizeOf_mem_arr xs x hx; omega)
        ((isCanonList_iff xs).mp hc x hx))]
    | obj kvs =>
      rw [isCanon, Bool.and_eq_true] at hc
      rw [canon]
      rw [canonFields_eq_self kvs (fun p hp => ihn p.2
        (by have := sizeOf_mem_obj kvs p.1 p.2 (by simpa using hp); omega)
        ((isCanonFields_iff kvs).mp hc.2 p hp))]
      have hpw := strictSorted_pairwise _ hc.1
      have hpw2 : kvs.Pairwise (fun a b => a.1 < b.1) := (List.pairwise_map).mp hpw
      have hnd : (kvs.map (·.1)).Nodup := hpw.imp ne_of_lt
      rw [dedupKeys_eq_self kvs hnd]
      rw [sortFields_eq_self kvs (hpw2.imp fun hab => le_of_lt hab)]

theorem canon_idem (v : Json) : canon (canon v) = canon v :=
  canon_eq_of_isCanon _ (isCanon_canon v)

theorem goUnmarshal_marshal (v : Json) : goUnmarshal (marshal v) = some (canon v) := by
  unfold goUnmarshal marshal
  rw [parseJson_serializeRaw (canon v) (isCanon_canon v)]
  simp [canon_idem]

theorem isObj_canon (v : Json) : isObj (canon v) = isObj v := by
  cases v <;> simp [canon, isObj]

/-! ## UTF-8 and base64 round-trips -/

theorem utf8EncodeChar_lt_256 (c : Char) : ∀ b ∈ utf8EncodeChar c, b < 256 := by
  have h := char_toNat_lt c
  intro b hb
  simp only [utf8EncodeChar] at hb
  by_cases h1 : c.toNat < 0x80
  · rw [if_pos h1] at hb
    simp only [List.mem_singleton] at hb
    omega
  rw [if_neg h1] at hb
  by_cases h2 : c.toNat < 0x800
  · rw [if_pos h2] at hb
    simp only [List.mem_cons, List.mem_singleton, List.not_mem_nil, or_false] at hb
    rcases hb with hb | hb <;> omega
  rw [if_neg h2] at hb
  by_cases h3 : c.toNat < 0x10000
  · rw [if_pos h3] at hb
    simp only [List.mem_cons, List.mem_singleton, List.not_mem_nil, or_false] at hb
    rcases hb with hb | hb | hb <;> omega
  · rw [if_neg h3] at hb
    simp only [List.mem_cons, List.mem_singleton, List.not_mem_nil, or_false] at hb
    rcases hb with hb | hb | hb | hb <;> omega

theorem utf8Encode_lt_256 (s : String) : ∀ b ∈ utf8Encode s, b < 256 := by
  intro b hb
  simp only [utf8Encode] at hb
  rw [List.mem_flatten] at hb
  obtain ⟨chunk, hchunk, hbc⟩ := hb
  rw [List.mem_map] at hchunk
  obtain ⟨c, -, hc⟩ := hchunk
  exact utf8EncodeChar_lt_256 c b (hc ▸ hbc)

theorem utf8DecodeLoop_succ (f : Nat) (b : Nat) (bs : List Nat) :
    utf8DecodeLoop (f + 1) (b :: bs) =
      (if b < 0x80 then (utf8DecodeLoop f bs).map (b :: ·)
       else if b < 0xC0 then none
       else if b < 0xE0 then
         match bs with
         | b2 :: bs2 => utf8Dec2 b b2 (utf8DecodeLoop f bs2)
         | _ => none
       else if b < 0xF0 then
         match bs with
         | b2 :: b3 :: bs2 => utf8Dec3 b b2 b3 (utf8DecodeLoop f bs2)
         | _ => none
       else if b < 0xF8 then
         match bs with
         | b2 :: b3 :: b4 :: bs2 => utf8Dec4 b b2 b3 b4 (utf8DecodeLoop f bs2)
         | _ => none
       else none) := rfl

theorem utf8DecodeLoop_one (f : Nat) (b : Nat) (bs : List Nat) (h1 : b < 0x80) :
    utf8DecodeLoop (f + 1) (b :: bs) = (utf8DecodeLoop f bs).map (b :: ·) := by
  rw [utf8DecodeLoop_succ, if_pos h1]

theorem utf8DecodeLoop_two (f : Nat) (b b2 : Nat) (bs : List Nat)
    (h1 : ¬ b < 0x80) (h2 : ¬ b < 0xC0) (h3 : b < 0xE0) :
    utf8DecodeLoop (f + 1) (b :: b2 :: bs) = utf8Dec2 b b2 (utf8DecodeLoop f bs) := by
  rw [utf8DecodeLoop_succ, if_neg h1, if_neg h2, if_pos h3]

theorem utf8DecodeLoop_three (f : Nat) (b b2 b3 : Nat) (bs : List Nat)
    (h1 : ¬ b < 0x80) (h2 : ¬ b < 0xC0) (h3 : ¬ b < 0xE0) (h4 : b < 0xF0) :
    utf8DecodeLoop (f + 1) (b :: b2 :: b3 :: bs) =
      utf8Dec3 b b2 b3 (utf8DecodeLoop f bs) := by
  rw [utf8DecodeLoop_succ, if_neg h1, if_neg h2, if_neg h3, if_pos h4]

theorem utf8DecodeLoop_four (f : Nat) (b b2 b3 b4 : Nat) (bs : List Nat)
    (h1 : ¬ b < 0x80) (h2 : ¬ b < 0xC0) (h3 : ¬ b < 0xE0) (h4 : ¬ b < 0xF0)
    (h5 : b < 0xF8) :
    utf8DecodeLoop (f + 1) (b :: b2 :: b3 :: b4 :: bs) =
      utf8Dec4 b b2 b3 b4 (utf8DecodeLoop f bs) := by
  rw [utf8DecodeLoop_succ, if_neg h1, if_neg h2, if_neg h3, if_neg h4, if_pos h5]

theorem utf8DecodeLoop_encode (l : List Char) : ∀ fuel,
    ((l.map utf8EncodeChar).flatten).length < fuel →
    utf8DecodeLoop fuel ((l.map utf8EncodeChar).flatten) = some (l.map Char.toNat) := by
  induction l with
  | nil =>
    intro fuel hf
    cases fuel with
    | zero => omega
    | succ f => rfl
  | cons c cs ih =>
    intro fuel hf
    have h := char_toNat_lt c
    simp only [List.map_cons, List.flatten_cons] at hf ⊢
    cases fuel with
    | zero =>
      simp only [List.length_append] at hf
      omega
    | succ f =>
      have hlc : 1 ≤ (utf8EncodeChar c).length := by
        simp only [utf8EncodeChar]
        repeat' split
        all_goals simp
      have ihf : utf8DecodeLoop f ((cs.map utf8EncodeChar).flatten) =
          some (cs.map Char.toNat) := by
        apply ih
        simp only [List.length_append] at hf
        omega
      by_cases h1 : c.toNat < 0x80
      · rw [show utf8EncodeChar c = [c.toNat] from by simp [utf8EncodeChar, h1]]
        simp only [List.cons_append, List.nil_append]
        rw [utf8DecodeLoop_one _ _ _ h1, ihf]
        rfl
      by_cases h2 : c.toNat < 0x800
      · rw [show utf8EncodeChar c =
            [0xC0 + c.toNat / 0x40, 0x80 + c.toNat % 0x40] from by
          simp [utf8EncodeChar, h1, h2]]
        simp only [List.cons_append, List.nil_append]
        rw [utf8DecodeLoop_two _ _ _ _ (by omega) (by omega) (by omega), ihf]
        rw [utf8Dec2, if_pos (by simp only [Bool.and_eq_true, decide_eq_true_eq]; omega)]
        have hE : (0xC0 + c.toNat / 0x40 - 0xC0) * 0x40 + (0x80 + c.toNat % 0x40 - 0x80) =
            c.toNat := by omega
        exact congrArg some (by rw [hE])
      by_cases h3 : c.toNat < 0x10000
      · rw [show utf8EncodeChar c =
            [0xE0 + c.toNat / 0x1000, 0x80 + (c.toNat / 0x40) % 0x40,
              0x80 + c.toNat % 0x40] from by
          simp [utf8EncodeChar, h1, h2, h3]]
        simp only [List.cons_append, List.nil_append]
        rw [utf8DecodeLoop_three _ _ _ _ _ (by omega) (by omega) (by omega) (by omega),
          ihf]
        rw [utf8Dec3, if_pos (by simp only [Bool.and_eq_true, decide_eq_true_eq]; omega)]
        have hE : (0xE0 + c.toNat / 0x1000 - 0xE0) * 0x1000 +
            (0x80 + (c.toNat / 0x40) % 0x40 - 0x80) * 0x40 +
            (0x80 + c.toNat % 0x40 - 0x80) = c.toNat := by omega
        exact congrArg some (by rw [hE])
      · rw [show utf8EncodeChar c =
            [0xF0 + c.toNat / 0x40000, 0x80 + (c.toNat / 0x1000) % 0x40,
              0x80 + (c.toNat / 0x40) % 0x40, 0x80 + c.toNat % 0x40] from by
          simp [utf8EncodeChar, h1, h2, h3]]
        simp only [List.cons_append, List.nil_append]
        rw [utf8DecodeLoop_four _ _ _ _ _ _ (by omega) (by omega) (by omega) (by omega)
          (by omega), ihf]
        rw [utf8Dec4, if_pos (by simp only [Bool.and_eq_true, decide_eq_true_eq]; omega)]
        have hE : (0xF0 + c.toNat / 0x40000 - 0xF0) * 0x40000 +
            (0x80 + (c.toNat / 0x1000) % 0x40 - 0x80) * 0x1000 +
            (0x80 + (c.toNat / 0x40) % 0x40 - 0x80) * 0x40 +
            (0x80 + c.toNat % 0x40 - 0x80) = c.toNat := by omega
        exact congrArg some (by rw [hE])

theorem utf8Decode_encode (l : List Char) :
    utf8Decode ((l.map utf8EncodeChar).flatten) = some (l.map Char.toNat) :=
  utf8DecodeLoop_encode l _ (by omega)

theorem utf8DecodeStr_encode (s : String) : utf8DecodeStr (utf8Encode s) = some s := by
  unfold utf8DecodeStr utf8Encode
  rw [utf8Decode_encode s.toList]
  show some (String.mk ((s.toList.map Char.toNat).map Char.ofNat)) = some s
  rw [List.map_map, show (Char.ofNat ∘ Char.toNat) = id from funext Char.ofNat_toNat,
    List.map_id]
  rfl

theorem b64ValOpt_b64Char : ∀ n < 64, b64ValOpt (b64Char n) = some n := by decide

theorem b64Char_ne_pad : ∀ n < 64, b64Char n ≠ '=' := by decide

theorem base64_decode_encode (bs : List Nat) (h : ∀ b ∈ bs, b < 256) :
    base64Decode (base64Encode bs) = some bs := by
  suffices H : ∀ n, ∀ bs : List Nat, bs.length ≤ n → (∀ b ∈ bs, b < 256) →
      base64Decode (base64Encode bs) = some bs from H bs.length bs le_rfl h
  clear h bs
  intro n
  induction n with
  | zero =>
    intro bs hlen h
    have hnil : bs = [] := List.eq_nil_of_length_eq_zero (by omega)
    subst hnil
    rfl
  | succ n ihn =>
    intro bs hlen h
    rcases bs with _ | ⟨b1, _ | ⟨b2, _ | ⟨b3, rest⟩⟩⟩
    · rfl
    · have hb1 : b1 < 256 := h b1 (by simp)
      simp only [base64Encode, base64Decode]
      have e1 : b64ValOpt (b64Char (b1 / 4)) = some (b1 / 4) :=
        b64ValOpt_b64Char _ (by omega)
      have e2 : b64ValOpt (b64Char (b1 % 4 * 16)) = some (b1 % 4 * 16) :=
        b64ValOpt_b64Char _ (by omega)
      simp only [e1, e2]
      simp
      omega
    · have hb1 : b1 < 256 := h b1 (by simp)
      have hb2 : b2 < 256 := h b2 (by simp)
      simp only [base64Encode, base64Decode]
      have e1 : b64ValOpt (b64Char (b1 / 4)) = some (b1 / 4) :=
        b64ValOpt_b64Char _ (by omega)
      have e2 : b64ValOpt (b64Char (b1 % 4 * 16 + b2 / 16)) =
          some (b1 % 4 * 16 + b2 / 16) := b64ValOpt_b64Char _ (by omega)
      have e3 : b64ValOpt (b64Char (b2 % 16 * 4)) = some (b2 % 16 * 4) :=
        b64ValOpt_b64Char _ (by omega)
      have hne : (b64Char (b2 % 16 * 4) = '=') = False :=
        eq_false (b64Char_ne_pad (b2 % 16 * 4) (by omega))
      simp only [e1, e2, e3, hne, if_false]
      simp
      constructor
      · omega
      · omega
    · have hb1 : b1 < 256 := h b1 (by simp)
      have hb2 : b2 < 256 := h b2 (by simp)
      have hb3 : b3 < 256 := h b3 (by simp)
      simp only [base64Encode, base64Decode]
      have e1 : b64ValOpt (b64Char (b1 / 4)) = some (b1 / 4) :=
        b64ValOpt_b64Char _ (by omega)
      have e2 : b64ValOpt (b64Char (b1 % 4 * 16 + b2 / 16)) =
          some (b1 % 4 * 16 + b2 / 16) := b64ValOpt_b64Char _ (by omega)
      have e3 : b64ValOpt (b64Char (b2 % 16 * 4 + b3 / 64)) =
          some (b2 % 16 * 4 + b3 / 64) := b64ValOpt_b64Char _ (by omega)
      have e4 : b64ValOpt (b64Char (b3 % 64)) = some (b3 % 64) :=
        b64ValOpt_b64Char _ (by omega)
      have hne3 : (b64Char (b2 % 16 * 4 + b3 / 64) = '=') = False :=
        eq_false (b64Char_ne_pad (b2 % 16 * 4 + b3 / 64) (by omega))
      have hne4 : (b64Char (b3 % 64) = '=') = False :=
        eq_false (b64Char_ne_pad (b3 % 64) (by omega))
      have hrec := ihn rest (by simp at hlen; omega) (fun b hb => h b (by simp [hb]))
      simp only [e1, e2, e3, e4, hne3, hne4, if_false, hrec]
      simp
      refine ⟨by omega, by omega, by omega⟩

/-! ## Claim C9: the MCP base64-of-JSON store -/

/-- Claim C9 is false as stated: `GetServer` unmarshals the stored blob
into a Go map, so a perfectly JSON-marshalable non-object configuration
(here the string `"hello"`) is stored by `AddServer` but can never be
read back — `GetServer` returns the unmarshal error rather than a value
with the same serialization. -/
theorem getServer_nonobject_counterexample :
    GetServer (AddServer newMCPConfig "srv" (.str "hello")) "srv" =
      .error "failed to unmarshal server config for srv" := by
  have h1 : assocLookup (AddServer newMCPConfig "srv" (.str "hello")).servers "srv" =
      some (base64EncodeStr (utf8Encode (marshal (.str "hello")))) := by
    unfold AddServer
    exact assocLookup_upsert_self _ _ _
  have h2 : base64Decode
      (base64EncodeStr (utf8Encode (marshal (.str "hello")))).toList =
      some (utf8Encode (marshal (.str "hello"))) := by
    rw [base64EncodeStr, toList_mk]
    exact base64_decode_encode _ (utf8Encode_lt_256 _)
  have h3 := utf8DecodeStr_encode (marshal (.str "hello"))
  have h4 := goUnmarshal_marshal (.str "hello")
  unfold GetServer
  simp only [h1, h2, h3, h4]
  rw [if_neg (by rw [isObj_canon]; decide)]
  rfl

/-- Claim C9 (amended): for every server name and configuration value, the
blob stored by `AddServer` round-trips losslessly through base64 and UTF-8
back to the exact `json.Marshal` output, and that text always unmarshals to
valid JSON (the canonical image of the stored value, whose serialization
equals the original serialization); when the configuration is a JSON
object, `GetServer` then returns that canonical value. -/
theorem mcp_store_roundtrip (m : MCPConfig) (name : String) (config : Json) :
    (assocLookup (AddServer m name config).servers name =
        some (base64EncodeStr (utf8Encode (marshal config))) ∧
      base64Decode (base64EncodeStr (utf8Encode (marshal config))).toList =
        some (utf8Encode (marshal config)) ∧
      utf8DecodeStr (utf8Encode (marshal config)) = some (marshal config) ∧
      goUnmarshal (marshal config) = some (canon config) ∧
      marshal (canon config) = marshal config) ∧
    (isObj config = true →
      GetServer (AddServer m name config) name = .ok (canon config)) := by
  have h1 : assocLookup (AddServer m name config).servers name =
      some (base64EncodeStr (utf8Encode (marshal config))) := by
    unfold AddServer
    exact assocLookup_upsert_self _ _ _
  have h2 : base64Decode (base64EncodeStr (utf8Encode (marshal config))).toList =
      some (utf8Encode (marshal config)) := by
    rw [base64EncodeStr, toList_mk]
    exact base64_decode_encode _ (utf8Encode_lt_256 _)
  have h3 := utf8DecodeStr_encode (marshal config)
  have h4 := goUnmarshal_marshal config
  have h5 : marshal (canon config) = marshal config := by
    unfold marshal
    rw [canon_idem]
  refine ⟨⟨h1, h2, h3, h4, h5⟩, fun hob => ?_⟩
  unfold GetServer
  simp only [h1, h2, h3, h4]
  rw [if_pos (by rw [isObj_canon]; exact hob)]

/-- Witness: storing the repository test configuration
`\x7b"command":"python","args":["-m","context7"]\x7d` under the name
`context7` and reading it back yields the canonical (key-sorted) object. -/
theorem mcp_store_roundtrip_witness :
    GetServer
      (AddServer newMCPConfig "context7"
        (.obj [("command", .str "python"),
               ("args", .arr [.str "-m", .str "context7"])]))
      "context7" =
      .ok (.obj [("args", .arr [.str "-m", .str "context7"]),
                 ("command", .str "python")]) := by
  have h := (mcp_store_roundtrip newMCPConfig "context7"
    (.obj [("command", .str "python"),
           ("args", .arr [.str "-m", .str "context7"])])).2 rfl
  rw [h]
  have hc : canon (.obj [("command", Json.str "python"),
      ("args", Json.arr [Json.str "-m", Json.str "context7"])]) =
      .obj [("args", .arr [.str "-m", .str "context7"]),
            ("command", .str "python")] := by
    simp [canon, canonFields, canonList, dedupKeys, upsert, sortFields,
      List.insertionSort, List.orderedInsert]
    decide
  rw [hc]

end Wexler
